import Mathlib

/-!
Verification of the circuit-maker analysis core (MNA solver and connectivity
validator) against its natural-language specification.

The Python core is shallowly embedded: floats become exact rationals (`ℚ`),
numpy arrays become total functions `Nat → Nat → ℚ` updated pointwise
(together with an explicit dimension), Python dicts become association lists
with insert-or-overwrite semantics, and exceptions become `Except`.  The
iteration order of Python `set`s (unspecified by the language) is rendered
deterministically as first-appearance order; the source code itself notes the
result is order-independent ("sets, not sequences").
-/

namespace CircuitMaker

/-- Remove duplicates from a list keeping the first occurrence of each
element, mirroring the order in which elements are first added to a Python
set while iterating the circuit. -/
def firstDedup {α : Type} [DecidableEq α] (l : List α) : List α :=
  l.foldl (fun acc x => if x ∈ acc then acc else acc ++ [x]) []

/-- Embedding of Python `sorted` on integer lists (ascending). -/
def isort (l : List Int) : List Int := List.insertionSort (fun a b => a ≤ b) l

/-- First-match lookup in an association list: the embedding of Python
`dict.__getitem__` / `dict.get` (our dicts keep keys unique). -/
def dictFind {α β : Type} [DecidableEq α] (d : List (α × β)) (k : α) : Option β :=
  match d with
  | [] => none
  | p :: rest => if p.1 = k then some p.2 else dictFind rest k

/-- Insert-or-overwrite in an association list: the embedding of Python
`dict.__setitem__` (overwriting keeps the key's original position, as in
CPython dicts). -/
def dictInsert {α β : Type} [DecidableEq α] (d : List (α × β)) (k : α) (v : β) :
    List (α × β) :=
  if d.any (fun p => p.1 = k) then
    d.map (fun p => if p.1 = k then (k, v) else p)
  else d ++ [(k, v)]

/-! ## Component model (src/components/) -/

/-- The closed set of component kinds of the repository. -/
inductive Kind : Type
  | resistor
  | wire
  | ground
  | powerSupply
  deriving DecidableEq, Repr

/-- A typed electrical component.  Embeds the electrical payload of the
Python `Component` subclasses; grid coordinates, orientation and colors are
UI-only and carry no electrical meaning.  `resistance` is meaningful only for
`Kind.resistor`, `voltage` only for `Kind.powerSupply` (mirroring which
Python subclass carries which attribute). -/
structure Component : Type where
  name : String
  kind : Kind
  nodes : List Int
  resistance : ℚ
  voltage : ℚ
  deriving DecidableEq, Repr

/-- Embedding of `Resistor.__init__`: node list is `[n1, n2]`. -/
def mkResistor (name : String) (n1 n2 : Int) (resistance : ℚ) : Component :=
  ⟨name, Kind.resistor, [n1, n2], resistance, 0⟩

/-- Embedding of `Wire.__init__`: node list is `[n1, n2]`. -/
def mkWire (name : String) (n1 n2 : Int) : Component :=
  ⟨name, Kind.wire, [n1, n2], 0, 0⟩

/-- Embedding of `Ground.__init__`: node list is the single `[n1]`. -/
def mkGround (name : String) (n1 : Int) : Component :=
  ⟨name, Kind.ground, [n1], 0, 0⟩

/-- Embedding of `PowerSupply.__init__`: node list is `[n1, n2]`. -/
def mkPowerSupply (name : String) (n1 n2 : Int) (voltage : ℚ) : Component :=
  ⟨name, Kind.powerSupply, [n1, n2], 0, voltage⟩

/-- Terminal count contract of each kind (one node for Ground, two for the
rest), as stated by the spec's data model. -/
def terminalCount : Kind → Nat
  | Kind.ground => 1
  | _ => 2

/-- Python class name of each kind, as produced by `type(comp).__name__`. -/
def typeName : Kind → String
  | Kind.resistor => "Resistor"
  | Kind.wire => "Wire"
  | Kind.ground => "Ground"
  | Kind.powerSupply => "PowerSupply"

/-- Embedding of the `calculate_current` dynamic dispatch: `Resistor`
overrides the base implementation with Ohm's law guarded against division by
zero; `PowerSupply` overrides it but returns `0.0`; `Wire` and `Ground`
inherit the base implementation returning `0.0`. -/
def Component.calculate_current (c : Component) (v1 v2 : ℚ) : ℚ :=
  match c.kind with
  | Kind.resistor => if c.resistance = 0 then 0 else (v1 - v2) / c.resistance
  | _ => 0

/-! ## Connectivity graph (src/core/solver.py `_analyze_connectivity`,
src/circuit_validator.py `_build_connectivity_graph` /
`_find_connected_components`) -/

/-- All node identifiers appearing in the circuit, in first-appearance
order: the embedding of `all_nodes` (a Python set updated with every
component's node list). -/
def nodesOf (comps : List Component) : List Int :=
  firstDedup (comps.foldr (fun c acc => c.nodes ++ acc) [])

/-- The undirected edge list: for every component with at least two nodes an
edge between `nodes[0]` and `nodes[1]` in both directions, skipping
self-loops. -/
def edges (comps : List Component) : List (Int × Int) :=
  comps.foldr
    (fun c acc =>
      match c.nodes with
      | n1 :: n2 :: _ => if n1 = n2 then acc else (n1, n2) :: (n2, n1) :: acc
      | _ => acc)
    []

/-- Neighbour function of the adjacency graph (the embedding of the Python
`graph` defaultdict of sets). -/
def adjFun (comps : List Component) (x : Int) : List Int :=
  firstDedup (((edges comps).filter (fun e => e.1 = x)).map Prod.snd)

/-- Fuel-driven breadth-first traversal, the embedding of the BFS loop shared
by solver and validator.  Returns `none` only on fuel exhaustion, which the
lemma `bfsLoop_total` below rules out for the fuel used by `netsLoop`. -/
def bfsLoop (ad : Int → List Int) : Nat → List Int → List Int → List Int →
    Option (List Int × List Int)
  | _, [], visited, comp => some (visited, comp)
  | 0, _ :: _, _, _ => none
  | fuel + 1, current :: rest, visited, comp =>
    if current ∈ visited then
      bfsLoop ad fuel rest visited comp
    else
      let visited2 := current :: visited
      let comp2 := comp ++ [current]
      let newQ := rest ++ (ad current).filter (fun nb => nb ∉ visited2)
      bfsLoop ad fuel newQ visited2 comp2

/-- Fuel that always suffices for one BFS started from a single node: one
dequeue for the start plus one enqueue per adjacency entry. -/
def bfsFuel (comps : List Component) : Nat :=
  1 + ((nodesOf comps).map (fun v => (adjFun comps v).length)).sum

/-- Outer loop of connected-component discovery: repeatedly pick the next
unvisited node and collect its BFS component. -/
def netsLoop (comps : List Component) : List Int → List Int → List (List Int) →
    List (List Int)
  | [], _, acc => acc
  | n :: rest, visited, acc =>
    if n ∈ visited then netsLoop comps rest visited acc
    else
      match bfsLoop (adjFun comps) (bfsFuel comps) [n] visited [] with
      | some (visited2, comp) => netsLoop comps rest visited2 (acc ++ [comp])
      | none => acc

/-- The list of connected networks of the circuit, each as the node list in
BFS discovery order: the embedding of `_analyze_connectivity` /
`_find_connected_components`. -/
def connectedNets (comps : List Component) : List (List Int) :=
  netsLoop comps (nodesOf comps) [] []

/-- The mathematical edge relation of the circuit's node graph. -/
def Edge (comps : List Component) (a b : Int) : Prop :=
  (a, b) ∈ edges comps

/-- Graph-theoretic connectivity: the reflexive-transitive closure of the
edge relation. -/
def Reach (comps : List Component) : Int → Int → Prop :=
  Relation.ReflTransGen (Edge comps)

/-! ## Validator (src/circuit_validator.py) -/

/-- Per-network detail record of the floating-nodes issue. -/
structure NetworkDetail : Type where
  nodes : List Int
  component_types : List String
  component_names : List String
  deriving DecidableEq, Repr

/-- Structured validation issues (only the floating-nodes issue exists). -/
inductive Issue : Type
  | floating_nodes (message : String) (details : List NetworkDetail)
  deriving DecidableEq, Repr

/-- Structured non-fatal validation warnings. -/
inductive Warning : Type
  | missing_ground (message suggestion : String)
  | missing_load (message suggestion : String)
  deriving DecidableEq, Repr

/-- Structured repair suggestions for connectivity issues. -/
inductive Suggestion : Type
  | connect_power_to_ground (message : String) (from_nodes to_nodes : List Int)
      (suggested_component : String)
  | connect_power_to_components (message : String) (from_nodes to_nodes : List Int)
      (suggested_component : String)
  deriving DecidableEq, Repr

/-- The structured report returned by `validate_circuit`. -/
structure ValidationResult : Type where
  is_valid : Bool
  issues : List Issue
  warnings : List Warning
  suggestions : List Suggestion
  connected_components : List (List Int)
  deriving DecidableEq, Repr

/-- Does some `PowerSupply` touch (have any node inside) the network? -/
def netHasPower (comps : List Component) (net : List Int) : Bool :=
  comps.any (fun c =>
    if c.kind = Kind.powerSupply then c.nodes.any (fun n => n ∈ net) else false)

/-- Does some `Ground` touch (have any node inside) the network? -/
def netHasGround (comps : List Component) (net : List Int) : Bool :=
  comps.any (fun c =>
    if c.kind = Kind.ground then c.nodes.any (fun n => n ∈ net) else false)

/-- Embedding of `_suggest_connection_fixes`: partition networks into
power / ground / other (a network with both power and ground lands in the
power bucket, because of the `elif`), then bridge the first power network to
the first ground network with a resistor and/or to the first other network
with a wire. -/
def suggestFixes (comps : List Component) : List Suggestion :=
  let nets := connectedNets comps
  if nets.length ≤ 1 then []
  else
    let powerNets := nets.filter (fun net => netHasPower comps net)
    let groundNets := nets.filter (fun net => !netHasPower comps net && netHasGround comps net)
    let otherNets := nets.filter (fun net => !netHasPower comps net && !netHasGround comps net)
    match powerNets with
    | [] => []
    | p :: _ =>
      if groundNets.isEmpty && otherNets.isEmpty then []
      else
        (match groundNets with
          | [] => []
          | g :: _ => [Suggestion.connect_power_to_ground
              "Connect power source to ground through a load resistor" p g "Resistor"]) ++
        (match otherNets with
          | [] => []
          | o :: _ => [Suggestion.connect_power_to_components
              "Connect power source to component network" p o "Wire"])

/-- Embedding of the per-network details built by `_check_floating_nodes`:
sorted node list, the set of touching component type names, and the touching
component names (empty names fall back to the type name). -/
def floatingDetails (comps : List Component) : List NetworkDetail :=
  (connectedNets comps).map (fun net =>
    ⟨isort net,
     firstDedup ((comps.filter (fun c => c.nodes.any (fun n => n ∈ net))).map
       (fun c => typeName c.kind)),
     (comps.filter (fun c => c.nodes.any (fun n => n ∈ net))).map
       (fun c => if c.name = "" then typeName c.kind else c.name)⟩)

/-- Embedding of `CircuitValidator.validate_circuit`.  A total function:
validation results are returned as data, never raised. -/
def validateCircuit (comps : List Component) : ValidationResult :=
  let nets := connectedNets comps
  let issues : List Issue :=
    if 2 ≤ nets.length then
      [Issue.floating_nodes
        ("Circuit has " ++ toString nets.length ++ " isolated networks")
        (floatingDetails comps)]
    else []
  let suggestions := if 2 ≤ nets.length then suggestFixes comps else []
  let hasGroundC := comps.any (fun c => c.kind = Kind.ground)
  let hasPowerC := comps.any (fun c => c.kind = Kind.powerSupply)
  let hasResistorC := comps.any (fun c => c.kind = Kind.resistor)
  let warnings :=
    (if !hasGroundC && hasPowerC then
      [Warning.missing_ground
        "Circuit has voltage sources but no explicit ground connection"
        "Add a ground component to provide a voltage reference"]
    else []) ++
    (if hasPowerC && !hasResistorC then
      [Warning.missing_load
        "Circuit has voltage sources but no load resistors"
        "Add resistors to create a complete current path and prevent short circuits"]
    else [])
  ⟨decide (nets.length ≤ 1), issues, warnings, suggestions, nets⟩

/-! ## MNA solver (src/core/solver.py) -/

/-- Persistent state of a `CircuitSolver` instance between `solve` calls:
the node map (kept as the sorted positive-node list, whose positions are the
matrix indices), the counters, and the most recent voltage-source branch
currents. -/
structure SolverState : Type where
  nodeList : List Int
  node_count : Nat
  num_voltage_sources : Nat
  voltage_source_currents : List ℚ
  deriving DecidableEq, Repr

/-- State of a freshly constructed `CircuitSolver`. -/
def initState : SolverState := ⟨[], 0, 0, []⟩

/-- Embedding of `_count_nodes_and_sources`: collect the set of strictly
positive node ids, sort it to fix the matrix indices, count voltage sources,
and clamp the node count to at least one. -/
def countNodesAndSources (s : SolverState) (comps : List Component) : SolverState :=
  let used := firstDedup ((comps.foldr (fun c acc => c.nodes ++ acc) []).filter
    (fun n => 0 < n))
  ⟨isort used,
   if used.length = 0 then 1 else used.length,
   (comps.filter (fun c => c.kind = Kind.powerSupply)).length,
   s.voltage_source_currents⟩

/-- Embedding of `self.node_map.get(n, -1) if n > 0 else -1`: the matrix
index of a node, `none` standing for the absent/ground index `-1`. -/
def nodeIdx (nl : List Int) (n : Int) : Option Nat :=
  if 0 < n then nl.findIdx? (fun m => m = n) else none

/-- Pointwise assignment `A[i, j] = v` on a function-represented matrix. -/
def upd (A : Nat → Nat → ℚ) (i j : Nat) (v : ℚ) : Nat → Nat → ℚ :=
  fun r c => if r = i ∧ c = j then v else A r c

/-- Pointwise increment `A[i, j] += v`. -/
def bump (A : Nat → Nat → ℚ) (i j : Nat) (v : ℚ) : Nat → Nat → ℚ :=
  upd A i j (A i j + v)

/-- Pointwise assignment `z[i] = v` on a function-represented vector. -/
def vupd (z : Nat → ℚ) (i : Nat) (v : ℚ) : Nat → ℚ :=
  fun r => if r = i then v else z r

/-- Matrix indices of explicitly grounded nodes (a set in the source, hence
deduplicated: several Ground components on one node add the large conductance
only once). -/
def groundedIdxs (nl : List Int) (comps : List Component) : List Nat :=
  firstDedup ((comps.filter (fun c => c.kind = Kind.ground)).filterMap (fun c =>
    match c.nodes with
    | nd :: _ => if 0 < nd then nodeIdx nl nd else none
    | [] => none))

/-- Embedding of `_handle_ground_connections`'s choice of indices: explicit
grounds, or the fallback of grounding matrix index 0 when none exist. -/
def handleGroundIdxs (s : SolverState) (comps : List Component) : List Nat :=
  let gs := groundedIdxs s.nodeList comps
  if gs = [] ∧ 0 < s.node_count then [0] else gs

/-- Embedding of `_stamp_passive_component` (resistors and wires): symmetric
conductance stamp, with the large fallback conductance `1e6` for wires and
zero-resistance components.  Components with fewer than two nodes are
skipped, as in the source. -/
def stampPassive (nl : List Int) (c : Component) (A : Nat → Nat → ℚ) :
    Nat → Nat → ℚ :=
  match c.nodes with
  | n1 :: n2 :: _ =>
    let idx1 := nodeIdx nl n1
    let idx2 := nodeIdx nl n2
    let g : ℚ :=
      if c.kind = Kind.resistor ∧ 0 < c.resistance then 1 / c.resistance else 1000000
    let A1 := match idx1 with | some i => bump A i i g | none => A
    let A2 := match idx2 with | some i => bump A1 i i g | none => A1
    match idx1, idx2 with
    | some i, some j => bump (bump A2 i j (-g)) j i (-g)
    | _, _ => A2
  | _ => A

/-- Embedding of `_stamp_voltage_source`: write `±1` couplings into the `C`
block (`A[i, n+k]`) and its transpose position in the `B` block
(`A[n+k, i]`), and the source voltage into `E[k]` (`z[n+k]`).  (A real
`PowerSupply` always has exactly two nodes.) -/
def stampVS (nl : List Int) (n : Nat) (c : Component) (k : Nat)
    (A : Nat → Nat → ℚ) (z : Nat → ℚ) : (Nat → Nat → ℚ) × (Nat → ℚ) :=
  match c.nodes with
  | n1 :: n2 :: _ =>
    let idx1 := nodeIdx nl n1
    let idx2 := nodeIdx nl n2
    let A1 := match idx1 with | some i => upd A i (n + k) 1 | none => A
    let A2 := match idx2 with | some i => upd A1 i (n + k) (-1) | none => A1
    let A3 := match idx1 with | some i => upd A2 (n + k) i 1 | none => A2
    let A4 := match idx2 with | some i => upd A3 (n + k) i (-1) | none => A3
    (A4, vupd z (n + k) c.voltage)
  | _ => (A, vupd z (n + k) c.voltage)

/-- Output of `prepare_system`: the (possibly unchanged, for the empty-list
early return) solver state, the block dimensions, and the assembled
augmented matrix and right-hand side, of size `(n + m) × (n + m)`. -/
structure PrepResult : Type where
  s : SolverState
  n : Nat
  m : Nat
  A : Nat → Nat → ℚ
  z : Nat → ℚ

/-- One step of the component-stamping loop of `prepare_system`: Ground is
skipped (already handled), a `PowerSupply` is stamped at the current
voltage-source index (which then increments), anything else is stamped as a
passive component. -/
def stampStep (nl : List Int) (n : Nat)
    (acc : (Nat → Nat → ℚ) × (Nat → ℚ) × Nat) (c : Component) :
    (Nat → Nat → ℚ) × (Nat → ℚ) × Nat :=
  if c.kind = Kind.ground then acc
  else if c.kind = Kind.powerSupply then
    let r := stampVS nl n c acc.2.2 acc.1 acc.2.1
    (r.1, r.2, acc.2.2 + 1)
  else (stampPassive nl c acc.1, acc.2.1, acc.2.2)

/-- Embedding of `CircuitSolver.prepare_system`.  The empty component list
returns the minimal `[[1]] · V = [0]` system WITHOUT touching the stored
state (the source's early return happens before `_count_nodes_and_sources`).
Otherwise: recount nodes and sources, add the `1e-12` stabilisation to the
`G` diagonal, apply ground connections, then stamp each non-ground component
in list order, numbering voltage sources as encountered. -/
def prepare_system (s : SolverState) (comps : List Component) : PrepResult :=
  match comps with
  | [] => ⟨s, 1, 0, fun r c => if r = 0 ∧ c = 0 then 1 else 0, fun _ => 0⟩
  | _ :: _ =>
    let s2 := countNodesAndSources s comps
    let n := max s2.node_count 1
    let A0 : Nat → Nat → ℚ := fun _ _ => 0
    let z0 : Nat → ℚ := fun _ => 0
    let A1 := (List.range n).foldl (fun A i => bump A i i (1 / 10 ^ 12)) A0
    let A2 := (handleGroundIdxs s2 comps).foldl
      (fun A idx => if idx < n then bump A idx idx 1000000 else A) A1
    let fin := comps.foldl (stampStep s2.nodeList n) (A2, z0, 0)
    ⟨s2, n, s2.num_voltage_sources, fin.1, fin.2.1⟩

/-- Scale a rational vector. -/
def vecScale (q : ℚ) (v : List ℚ) : List ℚ := v.map (fun x => q * x)

/-- Pointwise difference of rational vectors. -/
def vecSub (a b : List ℚ) : List ℚ := List.zipWith (fun x y => x - y) a b

/-- Dot product of rational vectors. -/
def dotQ (a b : List ℚ) : ℚ := (List.zipWith (fun x y => x * y) a b).foldr (· + ·) 0

/-- Pull out the first row whose leading entry is nonzero (the pivot row),
returning `none` when the leading column is entirely zero. -/
def splitPivot : List (List ℚ) → Option (List ℚ × List (List ℚ))
  | [] => none
  | r :: rs =>
    if r.headD 0 = 0 then
      match splitPivot rs with
      | none => none
      | some (p, rest) => some (p, r :: rest)
    else some (r, rs)

/-- Gaussian elimination with back substitution on augmented rows, recursing
on the declared row count.  `none` models `numpy.linalg.LinAlgError` on a
singular matrix. -/
def gjAux : Nat → List (List ℚ) → Option (List ℚ)
  | 0, _ => some []
  | sz + 1, rows =>
    match splitPivot rows with
    | none => none
    | some (p, rest) =>
      let pv := p.headD 0
      let prow := p.tail.map (fun x => x / pv)
      let rest2 := rest.map (fun r => vecSub r.tail (vecScale (r.headD 0) prow))
      match gjAux sz rest2 with
      | none => none
      | some sol =>
        some ((prow.getLastD 0 - dotQ prow.dropLast sol) :: sol)

/-- Exact-arithmetic embedding of `numpy.linalg.solve` on the augmented
system. -/
def gaussSolve (A : List (List ℚ)) (z : List ℚ) : Option (List ℚ) :=
  gjAux A.length (List.zipWith (fun row b => row ++ [b]) A z)

/-- Materialise the function-represented matrix as rows for the linear
solve. -/
def matRows (N : Nat) (A : Nat → Nat → ℚ) : List (List ℚ) :=
  (List.range N).map (fun i => (List.range N).map (fun j => A i j))

/-- Materialise the function-represented vector. -/
def vecItems (N : Nat) (z : Nat → ℚ) : List ℚ := (List.range N).map z

/-- Structured solver failures: the pre-solve floating-network rejection
(with its per-network report), the numeric `ValueError` raised from the
`LinAlgError` handler, and the `IndexError` reachable when a stale node map
outruns the freshly solved vector. -/
inductive SolveErr : Type
  | floatingNodes (details : List (List Int × List String))
  | numericFailure
  | indexError
  deriving DecidableEq, Repr

/-- Per-network report of `_validate_circuit_connectivity`: each network's
sorted node list paired with the set of component type names touching it. -/
def floatingPayload (comps : List Component) : List (List Int × List String) :=
  (connectedNets comps).map (fun net =>
    (isort net,
     firstDedup ((comps.filter (fun c => c.nodes.any (fun n => n ∈ net))).map
       (fun c => typeName c.kind))))

/-- Embedding of `result[node] = node_voltages[idx]` over the node map in
insertion (= sorted) order; `none` models the `IndexError` raised when an
index reaches past the voltage slice. -/
def buildResultAux (nv : List ℚ) : List Int → Nat → Option (List (Int × ℚ))
  | [], _ => some []
  | n :: rest, idx =>
    match nv[idx]? with
    | none => none
    | some v =>
      match buildResultAux nv rest (idx + 1) with
      | none => none
      | some d => some ((n, v) :: d)

/-- Embedding of `CircuitSolver.solve`: validate connectivity first and fail
fast with the per-network report; otherwise assemble the system, solve it,
map the first `node_count` entries back through the stored node map, insert
`0 ↦ 0`, and, when voltage sources exist, retain the trailing entries as
their branch currents. -/
def solve (s : SolverState) (comps : List Component) :
    Except SolveErr (SolverState × List (Int × ℚ)) :=
  if 2 ≤ (connectedNets comps).length then
    Except.error (SolveErr.floatingNodes (floatingPayload comps))
  else
    let p := prepare_system s comps
    match gaussSolve (matRows (p.n + p.m) p.A) (vecItems (p.n + p.m) p.z) with
    | none => Except.error SolveErr.numericFailure
    | some x =>
      let nv := x.take p.s.node_count
      match buildResultAux nv p.s.nodeList 0 with
      | none => Except.error SolveErr.indexError
      | some r0 =>
        let r := dictInsert r0 0 0
        let s2 :=
          if 0 < p.s.num_voltage_sources then
            SolverState.mk p.s.nodeList p.s.node_count p.s.num_voltage_sources
              (x.drop p.s.node_count)
          else p.s
        Except.ok (s2, r)

/-- One step of the `calculate_currents` loop: look up the component's
terminal voltages (defaulting to `0`, e.g. for the ground node), compute its
current, and store it under the component's name. -/
def currentStep (node_voltages : List (Int × ℚ)) (currents : List (String × ℚ))
    (c : Component) : List (String × ℚ) :=
  let v1 := (dictFind node_voltages (c.nodes.headD 0)).getD 0
  let v2 :=
    if 1 < c.nodes.length then (dictFind node_voltages (c.nodes[1]?.getD 0)).getD 0
    else 0
  dictInsert currents c.name (c.calculate_current v1 v2)

/-- Embedding of `CircuitSolver.calculate_currents`: every component (all
expose `calculate_current`) contributes an entry keyed by its name, with
terminal voltages looked up in the voltage map, defaulting to `0`. -/
def calculate_currents (comps : List Component) (node_voltages : List (Int × ℚ)) :
    List (String × ℚ) :=
  comps.foldl (currentStep node_voltages) []

/-! ## Spec-side graph notions and concrete circuits used by the claims -/

/-- Decidable equality for `Except` results (not provided by core). -/
instance {ε α : Type} [DecidableEq ε] [DecidableEq α] : DecidableEq (Except ε α) :=
  fun a b =>
    match a, b with
    | Except.ok x, Except.ok y =>
      if h : x = y then isTrue (by rw [h]) else isFalse (by intro hc; cases hc; exact h rfl)
    | Except.error x, Except.error y =>
      if h : x = y then isTrue (by rw [h]) else isFalse (by intro hc; cases hc; exact h rfl)
    | Except.ok _, Except.error _ => isFalse (by intro hc; cases hc)
    | Except.error _, Except.ok _ => isFalse (by intro hc; cases hc)

/-- The nodes of the circuit graph, as a subtype of the present node ids. -/
def CNode (comps : List Component) : Type := {n : Int // n ∈ nodesOf comps}

/-- Connectivity as an equivalence on present nodes: the equivalence closure
of the edge relation.  This is the spec-side, order-free notion of "being in
the same connected component of the node graph". -/
def ccSetoid (comps : List Component) : Setoid (CNode comps) :=
  Setoid.mk (fun a b => Relation.EqvGen (Edge comps) a.1 b.1)
    ⟨fun _ => Relation.EqvGen.refl _,
     fun h => Relation.EqvGen.symm _ _ h,
     fun h1 h2 => Relation.EqvGen.trans _ _ _ h1 h2⟩

/-- The number of connected components of the circuit's node graph: the
number of equivalence classes of connectivity over the present nodes. -/
noncomputable def ccCount (comps : List Component) : Nat :=
  Nat.card (Quotient (ccSetoid comps))

/-- Project a solve result on its final solver state (the fresh state on
error, which no claim exercises). -/
def stateOf (e : Except SolveErr (SolverState × List (Int × ℚ))) : SolverState :=
  match e with
  | Except.ok p => p.1
  | Except.error _ => initState

/-- Project a solve result on its voltage map (empty on error). -/
def voltsOf (e : Except SolveErr (SolverState × List (Int × ℚ))) : List (Int × ℚ) :=
  match e with
  | Except.ok p => p.2
  | Except.error _ => []

/-- Is a warning the missing-load warning? -/
def isMissingLoad : Warning → Bool
  | Warning.missing_load _ _ => true
  | _ => false

/-- The spec's basic scenario: a 5 V source across a 1 kΩ resistor with an
explicit ground on node 0. -/
def c5comps : List Component :=
  [mkPowerSupply "V1" 1 0 5, mkResistor "R1" 1 0 1000, mkGround "GND" 0]

/-- The spec's floating-networks scenario with three isolated networks. -/
def scen3comps : List Component :=
  [mkPowerSupply "VS" 1 0 15, mkWire "W1" 3 4, mkWire "W2" 5 6, mkWire "W3" 4 5,
   mkGround "GND" 7]

/-- The per-network details reported for `scen3comps`. -/
def scen3details : List NetworkDetail :=
  [⟨[0, 1], ["PowerSupply"], ["VS"]⟩,
   ⟨[3, 4, 5, 6], ["Wire"], ["W1", "W2", "W3"]⟩,
   ⟨[7], ["Ground"], ["GND"]⟩]

/-- A voltage source loaded only by a zero-resistance resistor. -/
def c2comps : List Component :=
  [mkPowerSupply "V1" 1 0 5, mkResistor "R1" 1 0 0]

/-- Two isolated networks: one holding both a source and a ground, the other
holding only a source. -/
def c7comps : List Component :=
  [mkPowerSupply "V1" 1 2 5, mkGround "G1" 1, mkPowerSupply "V2" 3 4 5]

/-- A one-node circuit solved to populate the solver's persistent state. -/
def c9prior : List Component := [mkPowerSupply "V1" 1 0 5]

/-- The solver state left behind by solving `c9prior`. -/
def c9staleState : SolverState := stateOf (solve initState c9prior)

/-! ## List utility lemmas -/

theorem foldl_dedup_mem {α : Type} [DecidableEq α] (l acc : List α) (a : α) :
    a ∈ l.foldl (fun acc x => if x ∈ acc then acc else acc ++ [x]) acc ↔
      a ∈ acc ∨ a ∈ l := by
  induction l generalizing acc with
  | nil => simp
  | cons x xs ih =>
    simp only [List.foldl_cons]
    by_cases hx : x ∈ acc
    · rw [if_pos hx, ih]
      constructor
      · rintro (h | h)
        · exact Or.inl h
        · exact Or.inr (List.mem_cons_of_mem _ h)
      · rintro (h | h)
        · exact Or.inl h
        · rcases List.mem_cons.mp h with h | h
          · exact Or.inl (h ▸ hx)
          · exact Or.inr h
    · rw [if_neg hx, ih]
      simp only [List.mem_append, List.mem_singleton, List.mem_cons]
      tauto

theorem mem_firstDedup {α : Type} [DecidableEq α] (l : List α) (a : α) :
    a ∈ firstDedup l ↔ a ∈ l := by
  unfold firstDedup
  rw [foldl_dedup_mem]
  simp

theorem foldl_dedup_nodup {α : Type} [DecidableEq α] (l acc : List α)
    (h : acc.Nodup) :
    (l.foldl (fun acc x => if x ∈ acc then acc else acc ++ [x]) acc).Nodup := by
  induction l generalizing acc with
  | nil => simpa using h
  | cons x xs ih =>
    simp only [List.foldl_cons]
    by_cases hx : x ∈ acc
    · rw [if_pos hx]; exact ih acc h
    · rw [if_neg hx]
      refine ih (acc ++ [x]) ?_
      refine List.nodup_append.mpr ⟨h, List.nodup_singleton x, ?_⟩
      intro a ha hax
      rcases List.mem_singleton.mp hax with rfl
      exact hx ha

theorem nodup_firstDedup {α : Type} [DecidableEq α] (l : List α) :
    (firstDedup l).Nodup :=
  foldl_dedup_nodup l [] List.nodup_nil

theorem mem_nodes_foldr (comps : List Component) (x : Int) :
    x ∈ comps.foldr (fun c acc => c.nodes ++ acc) [] ↔ ∃ c ∈ comps, x ∈ c.nodes := by
  induction comps with
  | nil => simp
  | cons c rest ih =>
    simp only [List.foldr_cons, List.mem_append, ih, List.mem_cons]
    constructor
    · rintro (h | ⟨c2, hc2, hx⟩)
      · exact ⟨c, Or.inl rfl, h⟩
      · exact ⟨c2, Or.inr hc2, hx⟩
    · rintro ⟨c2, hc2 | hc2, hx⟩
      · exact Or.inl (hc2 ▸ hx)
      · exact Or.inr ⟨c2, hc2, hx⟩

theorem mem_nodesOf (comps : List Component) (x : Int) :
    x ∈ nodesOf comps ↔ ∃ c ∈ comps, x ∈ c.nodes := by
  unfold nodesOf
  rw [mem_firstDedup, mem_nodes_foldr]

/-! ## Graph lemmas -/

theorem edges_cons (c : Component) (rest : List Component) :
    edges (c :: rest) =
      (match c.nodes with
        | n1 :: n2 :: _ =>
          if n1 = n2 then edges rest else (n1, n2) :: (n2, n1) :: edges rest
        | _ => edges rest) := rfl

theorem edges_symm (comps : List Component) (a b : Int)
    (h : (a, b) ∈ edges comps) : (b, a) ∈ edges comps := by
  induction comps with
  | nil => simp [edges] at h
  | cons c rest ih =>
    rw [edges_cons] at h ⊢
    rcases hn : c.nodes with _ | ⟨n1, _ | ⟨n2, tl⟩⟩ <;> rw [hn] at h <;>
      dsimp only at h ⊢
    · exact ih h
    · exact ih h
    · by_cases he : n1 = n2
      · rw [if_pos he] at h
        rw [if_pos he]
        exact ih h
      · rw [if_neg he] at h
        rw [if_neg he]
        rcases List.mem_cons.mp h with h | h
        · cases h
          exact List.mem_cons_of_mem _ (List.mem_cons_self _ _)
        · rcases List.mem_cons.mp h with h | h
          · cases h
            exact List.mem_cons_self _ _
          · exact List.mem_cons_of_mem _ (List.mem_cons_of_mem _ (ih h))

theorem edge_mem_nodes (comps : List Component) (a b : Int)
    (h : (a, b) ∈ edges comps) : a ∈ nodesOf comps ∧ b ∈ nodesOf comps := by
  induction comps with
  | nil => simp [edges] at h
  | cons c rest ih =>
    rw [edges_cons] at h
    have step : ∀ x : Int, x ∈ nodesOf rest → x ∈ nodesOf (c :: rest) := by
      intro x hx
      rcases (mem_nodesOf rest x).mp hx with ⟨c2, hc2, hxc⟩
      exact (mem_nodesOf (c :: rest) x).mpr ⟨c2, List.mem_cons_of_mem _ hc2, hxc⟩
    rcases hn : c.nodes with _ | ⟨n1, _ | ⟨n2, tl⟩⟩ <;> rw [hn] at h <;>
      dsimp only at h
    · exact ⟨step a (ih h).1, step b (ih h).2⟩
    · exact ⟨step a (ih h).1, step b (ih h).2⟩
    · have hmem1 : n1 ∈ nodesOf (c :: rest) :=
        (mem_nodesOf _ _).mpr ⟨c, List.mem_cons_self _ _, by rw [hn]; exact List.mem_cons_self _ _⟩
      have hmem2 : n2 ∈ nodesOf (c :: rest) :=
        (mem_nodesOf _ _).mpr ⟨c, List.mem_cons_self _ _,
          by rw [hn]; exact List.mem_cons_of_mem _ (List.mem_cons_self _ _)⟩
      by_cases he : n1 = n2
      · rw [if_pos he] at h
        exact ⟨step a (ih h).1, step b (ih h).2⟩
      · rw [if_neg he] at h
        rcases List.mem_cons.mp h with h | h
        · cases h; exact ⟨hmem1, hmem2⟩
        · rcases List.mem_cons.mp h with h | h
          · cases h; exact ⟨hmem2, hmem1⟩
          · exact ⟨step a (ih h).1, step b (ih h).2⟩

theorem mem_adjFun (comps : List Component) (a b : Int) :
    b ∈ adjFun comps a ↔ Edge comps a b := by
  unfold adjFun Edge
  rw [mem_firstDedup]
  simp only [List.mem_map, List.mem_filter, decide_eq_true_eq]
  constructor
  · rintro ⟨⟨x, y⟩, ⟨hmem, rfl⟩, rfl⟩
    exact hmem
  · intro h
    exact ⟨(a, b), ⟨h, rfl⟩, rfl⟩

theorem adjFun_sub_nodes (comps : List Component) (a b : Int)
    (h : b ∈ adjFun comps a) : b ∈ nodesOf comps :=
  (edge_mem_nodes comps a b ((mem_adjFun comps a b).mp h)).2

theorem reach_symm (comps : List Component) (a b : Int)
    (h : Reach comps a b) : Reach comps b a :=
  Relation.ReflTransGen.symmetric (fun _ _ hxy => edges_symm comps _ _ hxy) h

theorem reach_mem_nodes (comps : List Component) (a b : Int)
    (ha : a ∈ nodesOf comps) (h : Reach comps a b) : b ∈ nodesOf comps := by
  induction h with
  | refl => exact ha
  | tail _ hbc ih => exact (edge_mem_nodes comps _ _ hbc).2

theorem reach_closed_of_closed (comps : List Component) (v : List Int)
    (hv : ∀ y ∈ v, ∀ z ∈ adjFun comps y, z ∈ v) (a b : Int)
    (ha : a ∈ v) (h : Reach comps a b) : b ∈ v := by
  induction h with
  | refl => exact ha
  | tail _ hbc ih => exact hv _ ih _ ((mem_adjFun comps _ _).mpr hbc)

/-! ## BFS correctness -/

theorem bfsLoop_nil (ad : Int → List Int) (fuel : Nat) (v c : List Int) :
    bfsLoop ad fuel [] v c = some (v, c) := by
  cases fuel <;> rfl

theorem bfsLoop_zero_cons (ad : Int → List Int) (cur : Int) (rest v c : List Int) :
    bfsLoop ad 0 (cur :: rest) v c = none := rfl

theorem bfsLoop_cons (ad : Int → List Int) (fuel : Nat) (cur : Int)
    (rest v c : List Int) :
    bfsLoop ad (fuel + 1) (cur :: rest) v c =
      if cur ∈ v then bfsLoop ad fuel rest v c
      else bfsLoop ad fuel (rest ++ (ad cur).filter (fun nb => nb ∉ cur :: v))
        (cur :: v) (c ++ [cur]) := rfl

theorem bfsLoop_mono (ad : Int → List Int) :
    ∀ (fuel : Nat) (q v c v2 c2 : List Int),
      bfsLoop ad fuel q v c = some (v2, c2) → ∀ x ∈ v, x ∈ v2 := by
  intro fuel
  induction fuel with
  | zero =>
    intro q v c v2 c2 h x hx
    cases q with
    | nil =>
      rw [bfsLoop_nil] at h
      simp only [Option.some.injEq, Prod.mk.injEq] at h
      exact h.1 ▸ hx
    | cons a q2 =>
      rw [bfsLoop_zero_cons] at h
      cases h
  | succ fuel ih =>
    intro q v c v2 c2 h x hx
    cases q with
    | nil =>
      rw [bfsLoop_nil] at h
      simp only [Option.some.injEq, Prod.mk.injEq] at h
      exact h.1 ▸ hx
    | cons cur rest =>
      rw [bfsLoop_cons] at h
      by_cases hc : cur ∈ v
      · rw [if_pos hc] at h
        exact ih _ _ _ _ _ h x hx
      · rw [if_neg hc] at h
        exact ih _ _ _ _ _ h x (List.mem_cons_of_mem _ hx)

theorem bfsLoop_comp_iff (ad : Int → List Int) :
    ∀ (fuel : Nat) (q v c v2 c2 : List Int),
      bfsLoop ad fuel q v c = some (v2, c2) →
      ∀ x, x ∈ c2 ↔ (x ∈ c ∨ (x ∈ v2 ∧ x ∉ v)) := by
  intro fuel
  induction fuel with
  | zero =>
    intro q v c v2 c2 h x
    cases q with
    | nil =>
      rw [bfsLoop_nil] at h
      simp only [Option.some.injEq, Prod.mk.injEq] at h
      rcases h with ⟨rfl, rfl⟩
      constructor
      · exact fun hx => Or.inl hx
      · rintro (hx | ⟨hx1, hx2⟩)
        · exact hx
        · exact absurd hx1 hx2
    | cons a q2 =>
      rw [bfsLoop_zero_cons] at h
      cases h
  | succ fuel ih =>
    intro q v c v2 c2 h x
    cases q with
    | nil =>
      rw [bfsLoop_nil] at h
      simp only [Option.some.injEq, Prod.mk.injEq] at h
      rcases h with ⟨rfl, rfl⟩
      constructor
      · exact fun hx => Or.inl hx
      · rintro (hx | ⟨hx1, hx2⟩)
        · exact hx
        · exact absurd hx1 hx2
    | cons cur rest =>
      rw [bfsLoop_cons] at h
      by_cases hc : cur ∈ v
      · rw [if_pos hc] at h
        exact ih _ _ _ _ _ h x
      · rw [if_neg hc] at h
        have hcur2 : cur ∈ v2 :=
          bfsLoop_mono ad _ _ _ _ _ _ h cur (List.mem_cons_self _ _)
        have ihx := ih _ _ _ _ _ h x
        rw [ihx]
        simp only [List.mem_append, List.mem_singleton, List.mem_cons,
          List.not_mem_nil, or_false]
        constructor
        · rintro ((hx | rfl) | ⟨hx1, hx2⟩)
          · exact Or.inl hx
          · exact Or.inr ⟨hcur2, hc⟩
          · exact Or.inr ⟨hx1, fun hxv => hx2 (Or.inr hxv)⟩
        · rintro (hx | ⟨hx1, hx2⟩)
          · exact Or.inl (Or.inl hx)
          · by_cases hxc : x = cur
            · exact Or.inl (Or.inr hxc)
            · exact Or.inr ⟨hx1, fun hxv => by
                rcases hxv with hxv | hxv
                · exact hxc hxv
                · exact hx2 hxv⟩

theorem bfsLoop_reach (comps : List Component) (s : Int) :
    ∀ (fuel : Nat) (q v c v2 c2 : List Int),
      bfsLoop (adjFun comps) fuel q v c = some (v2, c2) →
      (∀ x ∈ q, Reach comps s x) → ∀ x ∈ v2, x ∈ v ∨ Reach comps s x := by
  intro fuel
  induction fuel with
  | zero =>
    intro q v c v2 c2 h hq x hx
    cases q with
    | nil =>
      rw [bfsLoop_nil] at h
      simp only [Option.some.injEq, Prod.mk.injEq] at h
      exact Or.inl (h.1 ▸ hx)
    | cons a q2 =>
      rw [bfsLoop_zero_cons] at h
      cases h
  | succ fuel ih =>
    intro q v c v2 c2 h hq x hx
    cases q with
    | nil =>
      rw [bfsLoop_nil] at h
      simp only [Option.some.injEq, Prod.mk.injEq] at h
      exact Or.inl (h.1 ▸ hx)
    | cons cur rest =>
      rw [bfsLoop_cons] at h
      by_cases hc : cur ∈ v
      · rw [if_pos hc] at h
        exact ih _ _ _ _ _ h (fun y hy => hq y (List.mem_cons_of_mem _ hy)) x hx
      · rw [if_neg hc] at h
        have hreach_cur : Reach comps s cur := hq cur (List.mem_cons_self _ _)
        have hq2 : ∀ y ∈ rest ++ (adjFun comps cur).filter (fun nb => nb ∉ cur :: v),
            Reach comps s y := by
          intro y hy
          rcases List.mem_append.mp hy with hy | hy
          · exact hq y (List.mem_cons_of_mem _ hy)
          · have hyadj : y ∈ adjFun comps cur := List.mem_of_mem_filter hy
            exact hreach_cur.trans
              (Relation.ReflTransGen.single ((mem_adjFun comps cur y).mp hyadj))
        rcases ih _ _ _ _ _ h hq2 x hx with hxv | hxr
        · rcases List.mem_cons.mp hxv with rfl | hxv
          · exact Or.inr hreach_cur
          · exact Or.inl hxv
        · exact Or.inr hxr

theorem bfsLoop_closed (comps : List Component) :
    ∀ (fuel : Nat) (q v c v2 c2 : List Int),
      bfsLoop (adjFun comps) fuel q v c = some (v2, c2) →
      (∀ y ∈ v, ∀ z ∈ adjFun comps y, z ∈ v ∨ z ∈ q) →
      ∀ y ∈ v2, ∀ z ∈ adjFun comps y, z ∈ v2 := by
  intro fuel
  induction fuel with
  | zero =>
    intro q v c v2 c2 h hv y hy z hz
    cases q with
    | nil =>
      rw [bfsLoop_nil] at h
      simp only [Option.some.injEq, Prod.mk.injEq] at h
      rcases h with ⟨rfl, rfl⟩
      rcases hv y hy z hz with hzv | hzq
      · exact hzv
      · cases hzq
    | cons a q2 =>
      rw [bfsLoop_zero_cons] at h
      cases h
  | succ fuel ih =>
    intro q v c v2 c2 h hv y hy z hz
    cases q with
    | nil =>
      rw [bfsLoop_nil] at h
      simp only [Option.some.injEq, Prod.mk.injEq] at h
      rcases h with ⟨rfl, rfl⟩
      rcases hv y hy z hz with hzv | hzq
      · exact hzv
      · cases hzq
    | cons cur rest =>
      rw [bfsLoop_cons] at h
      by_cases hc : cur ∈ v
      · rw [if_pos hc] at h
        refine ih _ _ _ _ _ h ?_ y hy z hz
        intro y2 hy2 z2 hz2
        rcases hv y2 hy2 z2 hz2 with hzv | hzq
        · exact Or.inl hzv
        · rcases List.mem_cons.mp hzq with rfl | hzq
          · exact Or.inl hc
          · exact Or.inr hzq
      · rw [if_neg hc] at h
        refine ih _ _ _ _ _ h ?_ y hy z hz
        intro y2 hy2 z2 hz2
        rcases List.mem_cons.mp hy2 with heq | hy2
        · subst heq
          by_cases hz2v : z2 ∈ y2 :: v
          · exact Or.inl hz2v
          · refine Or.inr (List.mem_append.mpr (Or.inr ?_))
            exact List.mem_filter.mpr ⟨hz2, by simpa using hz2v⟩
        · rcases hv y2 hy2 z2 hz2 with hzv | hzq
          · exact Or.inl (List.mem_cons_of_mem _ hzv)
          · rcases List.mem_cons.mp hzq with rfl | hzq
            · exact Or.inl (List.mem_cons_self _ _)
            · exact Or.inr (List.mem_append.mpr (Or.inl hzq))

theorem bfsLoop_queue_sub (ad : Int → List Int) :
    ∀ (fuel : Nat) (q v c v2 c2 : List Int),
      bfsLoop ad fuel q v c = some (v2, c2) → ∀ x ∈ q, x ∈ v2 := by
  intro fuel
  induction fuel with
  | zero =>
    intro q v c v2 c2 h x hx
    cases q with
    | nil => cases hx
    | cons a q2 =>
      rw [bfsLoop_zero_cons] at h
      cases h
  | succ fuel ih =>
    intro q v c v2 c2 h x hx
    cases q with
    | nil => cases hx
    | cons cur rest =>
      rw [bfsLoop_cons] at h
      by_cases hc : cur ∈ v
      · rcases List.mem_cons.mp hx with rfl | hx
        · rw [if_pos hc] at h
          exact bfsLoop_mono ad _ _ _ _ _ _ h x hc
        · rw [if_pos hc] at h
          exact ih _ _ _ _ _ h x hx
      · rw [if_neg hc] at h
        rcases List.mem_cons.mp hx with rfl | hx
        · exact bfsLoop_mono ad _ _ _ _ _ _ h x (List.mem_cons_self _ _)
        · exact ih _ _ _ _ _ h x (List.mem_append.mpr (Or.inl hx))

theorem sum_filter_split (f : Int → Nat) :
    ∀ (l : List Int), l.Nodup → ∀ (v : List Int) (cur : Int), cur ∈ l → cur ∉ v →
      ((l.filter (fun x => x ∉ v)).map f).sum =
        f cur + ((l.filter (fun x => x ∉ cur :: v)).map f).sum := by
  intro l
  induction l with
  | nil => intro _ v cur hcur; cases hcur
  | cons a rest ih =>
    intro hl v cur hcur hcv
    have hnd := List.nodup_cons.mp hl
    rcases List.mem_cons.mp hcur with rfl | hcr
    · have h1 : List.filter (fun x => decide (x ∉ v)) (cur :: rest) =
          cur :: List.filter (fun x => decide (x ∉ v)) rest := by
        simp [List.filter_cons, hcv]
      have h2 : List.filter (fun x => decide (x ∉ cur :: v)) (cur :: rest) =
          List.filter (fun x => decide (x ∉ cur :: v)) rest := by
        simp [List.filter_cons]
      have h3 : List.filter (fun x => decide (x ∉ cur :: v)) rest =
          List.filter (fun x => decide (x ∉ v)) rest := by
        refine List.filter_congr ?_
        intro x hx
        have hxc : x ≠ cur := fun hxc => hnd.1 (hxc ▸ hx)
        simp [List.mem_cons, hxc]
      rw [h1, h2, h3, List.map_cons, List.sum_cons]
    · have hac : a ≠ cur := fun hac => hnd.1 (hac ▸ hcr)
      have hiff : (a ∉ cur :: v) ↔ (a ∉ v) := by
        simp [List.mem_cons, hac]
      by_cases hav : a ∈ v
      · have h1 : List.filter (fun x => decide (x ∉ v)) (a :: rest) =
            List.filter (fun x => decide (x ∉ v)) rest := by
          simp [List.filter_cons, hav]
        have h2 : List.filter (fun x => decide (x ∉ cur :: v)) (a :: rest) =
            List.filter (fun x => decide (x ∉ cur :: v)) rest := by
          simp [List.filter_cons, hiff.not_left, List.mem_cons, hav]
        rw [h1, h2, ih hnd.2 v cur hcr hcv]
      · have h1 : List.filter (fun x => decide (x ∉ v)) (a :: rest) =
            a :: List.filter (fun x => decide (x ∉ v)) rest := by
          simp [List.filter_cons, hav]
        have h2 : List.filter (fun x => decide (x ∉ cur :: v)) (a :: rest) =
            a :: List.filter (fun x => decide (x ∉ cur :: v)) rest := by
          simp [List.filter_cons, List.mem_cons, hac, hav]
        rw [h1, h2, List.map_cons, List.sum_cons, List.map_cons, List.sum_cons,
          ih hnd.2 v cur hcr hcv]
        omega

theorem sum_filter_le (f : Int → Nat) (p : Int → Bool) :
    ∀ (l : List Int), ((l.filter p).map f).sum ≤ (l.map f).sum := by
  intro l
  induction l with
  | nil => simp
  | cons a rest ih =>
    rw [List.filter_cons]
    by_cases hp : p a
    · rw [if_pos hp, List.map_cons, List.sum_cons, List.map_cons, List.sum_cons]
      omega
    · rw [if_neg hp, List.map_cons, List.sum_cons]
      omega

theorem bfsLoop_total (comps : List Component) :
    ∀ (fuel : Nat) (q v c : List Int), (∀ x ∈ q, x ∈ nodesOf comps) →
      q.length + (((nodesOf comps).filter (fun x => x ∉ v)).map
        (fun x => (adjFun comps x).length)).sum ≤ fuel →
      (bfsLoop (adjFun comps) fuel q v c).isSome := by
  intro fuel
  induction fuel with
  | zero =>
    intro q v c hq hbound
    cases q with
    | nil => rw [bfsLoop_nil]; rfl
    | cons cur rest => simp at hbound
  | succ fuel ih =>
    intro q v c hq hbound
    cases q with
    | nil => rw [bfsLoop_nil]; rfl
    | cons cur rest =>
      rw [bfsLoop_cons]
      by_cases hc : cur ∈ v
      · rw [if_pos hc]
        refine ih rest v c (fun x hx => hq x (List.mem_cons_of_mem _ hx)) ?_
        simp only [List.length_cons] at hbound
        omega
      · rw [if_neg hc]
        have hsplit := sum_filter_split (fun x => (adjFun comps x).length)
          (nodesOf comps) (nodup_firstDedup _) v cur (hq cur (List.mem_cons_self _ _)) hc
        dsimp only at hsplit
        refine ih _ _ _ ?_ ?_
        · intro x hx
          rcases List.mem_append.mp hx with hx | hx
          · exact hq x (List.mem_cons_of_mem _ hx)
          · exact adjFun_sub_nodes comps cur x (List.mem_of_mem_filter hx)
        · have hlen : (rest ++ (adjFun comps cur).filter
              (fun nb => nb ∉ cur :: v)).length ≤
              rest.length + (adjFun comps cur).length := by
            rw [List.length_append]
            have := List.length_filter_le (fun nb => decide (nb ∉ cur :: v))
              (adjFun comps cur)
            omega
          simp only [List.length_cons] at hbound
          omega

theorem netsLoop_nil (comps : List Component) (visited : List Int)
    (acc : List (List Int)) : netsLoop comps [] visited acc = acc := rfl

theorem netsLoop_cons (comps : List Component) (n : Int) (rest visited : List Int)
    (acc : List (List Int)) :
    netsLoop comps (n :: rest) visited acc =
      if n ∈ visited then netsLoop comps rest visited acc
      else
        match bfsLoop (adjFun comps) (bfsFuel comps) [n] visited [] with
        | some (visited2, comp) => netsLoop comps rest visited2 (acc ++ [comp])
        | none => acc := rfl

theorem netsLoop_spec (comps : List Component) :
    ∀ (pending visited : List Int) (acc : List (List Int)),
      (∀ x ∈ pending, x ∈ nodesOf comps) →
      (∀ y ∈ visited, ∀ z ∈ adjFun comps y, z ∈ visited) →
      (∀ x : Int, x ∈ visited ↔ ∃ N ∈ acc, x ∈ N) →
      (∀ N ∈ acc, ∃ r, r ∈ nodesOf comps ∧ ∀ x, x ∈ N ↔ Reach comps r x) →
      List.Pairwise (fun N1 N2 => ∀ x, x ∈ N1 → x ∉ N2) acc →
      (∀ N ∈ netsLoop comps pending visited acc,
          ∃ r, r ∈ nodesOf comps ∧ ∀ x, x ∈ N ↔ Reach comps r x) ∧
      (∀ x ∈ pending, ∃ N ∈ netsLoop comps pending visited acc, x ∈ N) ∧
      (∀ N ∈ acc, N ∈ netsLoop comps pending visited acc) ∧
      List.Pairwise (fun N1 N2 => ∀ x, x ∈ N1 → x ∉ N2)
        (netsLoop comps pending visited acc) := by
  intro pending
  induction pending with
  | nil =>
    intro visited acc hp hv hacc1 hacc2 hdisj
    rw [netsLoop_nil]
    exact ⟨hacc2, fun x hx => absurd hx (List.not_mem_nil x), fun N hN => hN, hdisj⟩
  | cons n rest ih =>
    intro visited acc hp hv hacc1 hacc2 hdisj
    rw [netsLoop_cons]
    by_cases hn : n ∈ visited
    · rw [if_pos hn]
      obtain ⟨ha, hb, hc, hd⟩ := ih visited acc
        (fun x hx => hp x (List.mem_cons_of_mem _ hx)) hv hacc1 hacc2 hdisj
      refine ⟨ha, ?_, hc, hd⟩
      intro x hx
      rcases List.mem_cons.mp hx with rfl | hx
      · rcases (hacc1 x).mp hn with ⟨N, hN, hxN⟩
        exact ⟨N, hc N hN, hxN⟩
      · exact hb x hx
    · rw [if_neg hn]
      have hnn : n ∈ nodesOf comps := hp n (List.mem_cons_self _ _)
      have hq1 : ∀ x ∈ ([n] : List Int), x ∈ nodesOf comps := by
        intro x hx
        rcases List.mem_singleton.mp hx with rfl
        exact hnn
      have hbound : ([n] : List Int).length +
          (((nodesOf comps).filter (fun x => x ∉ visited)).map
            (fun x => (adjFun comps x).length)).sum ≤ bfsFuel comps := by
        have hle := sum_filter_le (fun x => (adjFun comps x).length)
          (fun x => decide (x ∉ visited)) (nodesOf comps)
        unfold bfsFuel
        simp only [List.length_singleton]
        omega
      have htot := bfsLoop_total comps (bfsFuel comps) [n] visited [] hq1 hbound
      obtain ⟨⟨v2, c2⟩, hbfs⟩ := Option.isSome_iff_exists.mp htot
      rw [hbfs]
      have hmono := bfsLoop_mono (adjFun comps) _ _ _ _ _ _ hbfs
      have hcomp := bfsLoop_comp_iff (adjFun comps) _ _ _ _ _ _ hbfs
      have hstart : n ∈ v2 :=
        bfsLoop_queue_sub (adjFun comps) _ _ _ _ _ _ hbfs n (List.mem_singleton.mpr rfl)
      have hclosed := bfsLoop_closed comps _ _ _ _ _ _ hbfs
        (fun y hy z hz => Or.inl (hv y hy z hz))
      have hreach := bfsLoop_reach comps n _ _ _ _ _ _ hbfs
        (fun x hx => by rcases List.mem_singleton.mp hx with rfl; exact Relation.ReflTransGen.refl)
      have hc2 : ∀ x, x ∈ c2 ↔ (x ∈ v2 ∧ x ∉ visited) := by
        intro x
        rw [hcomp x]
        simp only [List.not_mem_nil, false_or]
      have hchar : ∀ x, x ∈ c2 ↔ Reach comps n x := by
        intro x
        rw [hc2 x]
        constructor
        · rintro ⟨hxv2, hxnv⟩
          rcases hreach x hxv2 with hxv | hr
          · exact absurd hxv hxnv
          · exact hr
        · intro hr
          refine ⟨reach_closed_of_closed comps v2 hclosed n x hstart hr, ?_⟩
          intro hxvis
          exact hn (reach_closed_of_closed comps visited hv x n hxvis
            (reach_symm comps n x hr))
      have hacc1' : ∀ x : Int, x ∈ v2 ↔ ∃ N ∈ acc ++ [c2], x ∈ N := by
        intro x
        constructor
        · intro hx
          by_cases hxvis : x ∈ visited
          · rcases (hacc1 x).mp hxvis with ⟨N, hN, hxN⟩
            exact ⟨N, List.mem_append.mpr (Or.inl hN), hxN⟩
          · exact ⟨c2, List.mem_append.mpr (Or.inr (List.mem_singleton.mpr rfl)),
              (hc2 x).mpr ⟨hx, hxvis⟩⟩
        · rintro ⟨N, hN, hxN⟩
          rcases List.mem_append.mp hN with hN | hN
          · exact hmono x ((hacc1 x).mpr ⟨N, hN, hxN⟩)
          · rcases List.mem_singleton.mp hN with rfl
            exact ((hc2 x).mp hxN).1
      have hacc2' : ∀ N ∈ acc ++ [c2],
          ∃ r, r ∈ nodesOf comps ∧ ∀ x, x ∈ N ↔ Reach comps r x := by
        intro N hN
        rcases List.mem_append.mp hN with hN | hN
        · exact hacc2 N hN
        · rcases List.mem_singleton.mp hN with rfl
          exact ⟨n, hnn, hchar⟩
      have hdisj' : List.Pairwise (fun N1 N2 => ∀ x, x ∈ N1 → x ∉ N2) (acc ++ [c2]) := by
        rw [List.pairwise_append]
        refine ⟨hdisj, List.pairwise_singleton _ _, ?_⟩
        intro N hN M hM x hxN
        rcases List.mem_singleton.mp hM with rfl
        intro hxM
        exact ((hc2 x).mp hxM).2 ((hacc1 x).mpr ⟨N, hN, hxN⟩)
      obtain ⟨ha, hb, hc, hd⟩ := ih v2 (acc ++ [c2])
        (fun x hx => hp x (List.mem_cons_of_mem _ hx)) hclosed hacc1' hacc2' hdisj'
      refine ⟨ha, ?_, ?_, hd⟩
      · intro x hx
        rcases List.mem_cons.mp hx with rfl | hx
        · exact ⟨c2, hc c2 (List.mem_append.mpr (Or.inr (List.mem_singleton.mpr rfl))),
            (hchar x).mpr Relation.ReflTransGen.refl⟩
        · exact hb x hx
      · intro N hN
        exact hc N (List.mem_append.mpr (Or.inl hN))

theorem connectedNets_spec (comps : List Component) :
    (∀ N ∈ connectedNets comps,
        ∃ r, r ∈ nodesOf comps ∧ ∀ x, x ∈ N ↔ Reach comps r x) ∧
    (∀ x ∈ nodesOf comps, ∃ N ∈ connectedNets comps, x ∈ N) ∧
    List.Pairwise (fun N1 N2 => ∀ x, x ∈ N1 → x ∉ N2) (connectedNets comps) := by
  obtain ⟨ha, hb, _, hd⟩ := netsLoop_spec comps (nodesOf comps) [] []
    (fun x hx => hx)
    (fun y hy => absurd hy (List.not_mem_nil y))
    (by intro x; simp)
    (by intro N hN; exact absurd hN (List.not_mem_nil N))
    List.Pairwise.nil
  exact ⟨ha, hb, hd⟩

theorem eqvGen_iff_reach (comps : List Component) (a b : Int) :
    Relation.EqvGen (Edge comps) a b ↔ Reach comps a b := by
  constructor
  · intro h
    induction h with
    | rel x y hxy => exact Relation.ReflTransGen.single hxy
    | refl x => exact Relation.ReflTransGen.refl
    | symm x y _ ih => exact reach_symm comps _ _ ih
    | trans x y z _ _ ih1 ih2 => exact ih1.trans ih2
  · intro h
    induction h with
    | refl => exact Relation.EqvGen.refl _
    | tail _ hbc ih => exact Relation.EqvGen.trans _ _ _ ih (Relation.EqvGen.rel _ _ hbc)

theorem ccCount_eq (comps : List Component) :
    ccCount comps = (connectedNets comps).length := by
  obtain ⟨ha, hb, hd⟩ := connectedNets_spec comps
  have hrep : ∀ i : Fin (connectedNets comps).length,
      ∃ r, r ∈ nodesOf comps ∧
        ∀ x, x ∈ (connectedNets comps).get i ↔ Reach comps r x :=
    fun i => ha _ (List.get_mem _ _ _)
  let f : Fin (connectedNets comps).length → Quotient (ccSetoid comps) :=
    fun i => Quotient.mk (ccSetoid comps) ⟨(hrep i).choose, (hrep i).choose_spec.1⟩
  have hpair : ∀ i j : Fin (connectedNets comps).length, i.1 < j.1 →
      ∀ x, x ∈ (connectedNets comps).get i → x ∉ (connectedNets comps).get j := by
    intro i j hij x
    have := List.pairwise_iff_getElem.mp hd i.1 j.1 i.2 j.2 hij x
    simpa [List.get_eq_getElem] using this
  have hinj : Function.Injective f := by
    intro i j hij
    by_contra hne
    have hrel : Relation.EqvGen (Edge comps) (hrep i).choose (hrep j).choose :=
      Quotient.exact hij
    have hr : Reach comps (hrep i).choose (hrep j).choose :=
      (eqvGen_iff_reach comps _ _).mp hrel
    have h1 : (hrep j).choose ∈ (connectedNets comps).get i :=
      ((hrep i).choose_spec.2 _).mpr hr
    have h2 : (hrep j).choose ∈ (connectedNets comps).get j :=
      ((hrep j).choose_spec.2 _).mpr Relation.ReflTransGen.refl
    rcases Nat.lt_trichotomy i.1 j.1 with hlt | heq | hgt
    · exact hpair i j hlt _ h1 h2
    · exact hne (Fin.ext heq)
    · exact hpair j i hgt _ h2 h1
  have hsurj : Function.Surjective f := by
    intro q
    obtain ⟨a, rfl⟩ := Quotient.exists_rep q
    obtain ⟨x, hx⟩ := a
    rcases hb x hx with ⟨N, hN, hxN⟩
    rcases List.mem_iff_get.mp hN with ⟨i, hi⟩
    refine ⟨i, ?_⟩
    apply Quotient.sound
    show Relation.EqvGen (Edge comps) (hrep i).choose x
    rw [eqvGen_iff_reach]
    exact ((hrep i).choose_spec.2 x).mp (by rw [hi]; exact hxN)
  have hcard := Nat.card_eq_of_bijective f ⟨hinj, hsurj⟩
  rw [ccCount, ← hcard, Nat.card_eq_fintype_card, Fintype.card_fin]

/-! ## Symmetry of the assembled augmented system -/

theorem nodeIdx_lt_length (nl : List Int) (nd : Int) (k : Nat)
    (h : nodeIdx nl nd = some k) : k < nl.length := by
  unfold nodeIdx at h
  split at h
  · exact (List.findIdx?_eq_some_iff_findIdx_eq.mp h).1
  · cases h

theorem isort_length (l : List Int) : (isort l).length = l.length :=
  (List.perm_insertionSort _ l).length_eq

theorem nodeIdx_lt_n (s : SolverState) (comps : List Component) (nd : Int) (k : Nat)
    (h : nodeIdx (countNodesAndSources s comps).nodeList nd = some k) :
    k < max (countNodesAndSources s comps).node_count 1 := by
  have h1 := nodeIdx_lt_length _ _ _ h
  unfold countNodesAndSources at h1 ⊢
  dsimp only at h1 ⊢
  rw [isort_length] at h1
  split <;> omega

theorem bump_diag_preserves (n : Nat) (A : Nat → Nat → ℚ) (i : Nat) (v : ℚ)
    (hA : ∀ a b, A a b = A b a) (hD : ∀ p q, A (n + p) (n + q) = 0) (hi : i < n) :
    (∀ a b, bump A i i v a b = bump A i i v b a) ∧
    (∀ p q, bump A i i v (n + p) (n + q) = 0) := by
  constructor
  · intro a b
    simp only [bump, upd]
    split_ifs with h1 h2 h2
    · rfl
    · exact absurd ⟨h1.2, h1.1⟩ h2
    · exact absurd ⟨h2.2, h2.1⟩ h1
    · exact hA a b
  · intro p q
    simp only [bump, upd]
    rw [if_neg]
    · exact hD p q
    · rintro ⟨hp, _⟩
      omega

theorem bump_pair_preserves (n : Nat) (A : Nat → Nat → ℚ) (i j : Nat) (v : ℚ)
    (hA : ∀ a b, A a b = A b a) (hD : ∀ p q, A (n + p) (n + q) = 0)
    (hi : i < n) (hj : j < n) :
    (∀ a b, bump (bump A i j v) j i v a b = bump (bump A i j v) j i v b a) ∧
    (∀ p q, bump (bump A i j v) j i v (n + p) (n + q) = 0) := by
  by_cases hij : i = j
  · subst hij
    have h1 := bump_diag_preserves n A i v hA hD hi
    exact bump_diag_preserves n (bump A i i v) i v h1.1 h1.2 hi
  · constructor
    · intro a b
      simp only [bump, upd]
      split_ifs <;>
        first
          | rfl
          | exact hA a b
          | (exfalso; omega)
          | rw [hA i j]
    · intro p q
      simp only [bump, upd]
      rw [if_neg, if_neg]
      · exact hD p q
      · rintro ⟨hp, hq⟩
        omega
      · rintro ⟨hp, hq⟩
        omega

theorem stampPassive_preserves (nl : List Int) (n : Nat)
    (hidx : ∀ nd k, nodeIdx nl nd = some k → k < n) (c : Component)
    (A : Nat → Nat → ℚ) (hA : ∀ a b, A a b = A b a)
    (hD : ∀ p q, A (n + p) (n + q) = 0) :
    (∀ a b, stampPassive nl c A a b = stampPassive nl c A b a) ∧
    (∀ p q, stampPassive nl c A (n + p) (n + q) = 0) := by
  unfold stampPassive
  rcases hn : c.nodes with _ | ⟨n1, _ | ⟨n2, tl⟩⟩ <;> dsimp only
  · exact ⟨hA, hD⟩
  · exact ⟨hA, hD⟩
  · rcases h1 : nodeIdx nl n1 with _ | i1 <;> rcases h2 : nodeIdx nl n2 with _ | i2 <;>
      dsimp only
    · exact ⟨hA, hD⟩
    · exact bump_diag_preserves n A i2 _ hA hD (hidx n2 i2 h2)
    · exact bump_diag_preserves n A i1 _ hA hD (hidx n1 i1 h1)
    · set g : ℚ :=
        if c.kind = Kind.resistor ∧ 0 < c.resistance then 1 / c.resistance else 1000000
        with hg
      have hb1 := bump_diag_preserves n A i1 g hA hD (hidx n1 i1 h1)
      have hb2 := bump_diag_preserves n (bump A i1 i1 g) i2 g hb1.1 hb1.2
        (hidx n2 i2 h2)
      exact bump_pair_preserves n _ i1 i2 (-g) hb2.1 hb2.2 (hidx n1 i1 h1)
        (hidx n2 i2 h2)

theorem stampVS_preserves (nl : List Int) (n : Nat)
    (hidx : ∀ nd k, nodeIdx nl nd = some k → k < n) (c : Component) (k : Nat)
    (A : Nat → Nat → ℚ) (z : Nat → ℚ) (hA : ∀ a b, A a b = A b a)
    (hD : ∀ p q, A (n + p) (n + q) = 0) :
    (∀ a b, (stampVS nl n c k A z).1 a b = (stampVS nl n c k A z).1 b a) ∧
    (∀ p q, (stampVS nl n c k A z).1 (n + p) (n + q) = 0) := by
  unfold stampVS
  rcases hn : c.nodes with _ | ⟨n1, _ | ⟨n2, tl⟩⟩ <;> dsimp only
  · exact ⟨hA, hD⟩
  · exact ⟨hA, hD⟩
  · rcases h1 : nodeIdx nl n1 with _ | i1 <;> rcases h2 : nodeIdx nl n2 with _ | i2 <;>
      dsimp only
    · exact ⟨hA, hD⟩
    · have hlt2 := hidx n2 i2 h2
      constructor
      · intro a b
        simp only [upd]
        split_ifs <;> first | rfl | exact hA a b | (exfalso; omega)
      · intro p q
        simp only [upd]
        rw [if_neg, if_neg]
        · exact hD p q
        · rintro ⟨hp, hq⟩
          omega
        · rintro ⟨hp, hq⟩
          omega
    · have hlt1 := hidx n1 i1 h1
      constructor
      · intro a b
        simp only [upd]
        split_ifs <;> first | rfl | exact hA a b | (exfalso; omega)
      · intro p q
        simp only [upd]
        rw [if_neg, if_neg]
        · exact hD p q
        · rintro ⟨hp, hq⟩
          omega
        · rintro ⟨hp, hq⟩
          omega
    · have hlt1 := hidx n1 i1 h1
      have hlt2 := hidx n2 i2 h2
      constructor
      · intro a b
        simp only [upd]
        split_ifs <;> first | rfl | exact hA a b | (exfalso; omega)
      · intro p q
        simp only [upd]
        rw [if_neg, if_neg, if_neg, if_neg]
        · exact hD p q
        all_goals rintro ⟨hp, hq⟩
        all_goals omega

theorem stampFold_preserves (nl : List Int) (n : Nat)
    (hidx : ∀ nd k, nodeIdx nl nd = some k → k < n) :
    ∀ (cs : List Component) (acc : (Nat → Nat → ℚ) × (Nat → ℚ) × Nat),
      (∀ a b, acc.1 a b = acc.1 b a) →
      (∀ p q, acc.1 (n + p) (n + q) = 0) →
      (∀ a b, (cs.foldl (stampStep nl n) acc).1 a b =
        (cs.foldl (stampStep nl n) acc).1 b a) ∧
      (∀ p q, (cs.foldl (stampStep nl n) acc).1 (n + p) (n + q) = 0) := by
  intro cs
  induction cs with
  | nil => intro acc hA hD; exact ⟨hA, hD⟩
  | cons c rest ih =>
    intro acc hA hD
    rw [List.foldl_cons]
    unfold stampStep
    split_ifs with hg hp
    · exact ih acc hA hD
    · dsimp only
      have h := stampVS_preserves nl n hidx c acc.2.2 acc.1 acc.2.1 hA hD
      exact ih _ h.1 h.2
    · dsimp only
      have h := stampPassive_preserves nl n hidx c acc.1 hA hD
      exact ih _ h.1 h.2

theorem diagFold_preserves (n : Nat) (v : ℚ) :
    ∀ (l : List Nat) (A : Nat → Nat → ℚ),
      (∀ a b, A a b = A b a) → (∀ p q, A (n + p) (n + q) = 0) →
      (∀ i ∈ l, i < n) →
      (∀ a b, (l.foldl (fun A i => bump A i i v) A) a b =
        (l.foldl (fun A i => bump A i i v) A) b a) ∧
      (∀ p q, (l.foldl (fun A i => bump A i i v) A) (n + p) (n + q) = 0) := by
  intro l
  induction l with
  | nil => intro A hA hD _; exact ⟨hA, hD⟩
  | cons i rest ih =>
    intro A hA hD hl
    rw [List.foldl_cons]
    have h := bump_diag_preserves n A i v hA hD (hl i (List.mem_cons_self _ _))
    exact ih _ h.1 h.2 (fun j hj => hl j (List.mem_cons_of_mem _ hj))

theorem groundFold_preserves (n : Nat) (v : ℚ) :
    ∀ (l : List Nat) (A : Nat → Nat → ℚ),
      (∀ a b, A a b = A b a) → (∀ p q, A (n + p) (n + q) = 0) →
      (∀ a b, (l.foldl (fun A idx => if idx < n then bump A idx idx v else A) A) a b =
        (l.foldl (fun A idx => if idx < n then bump A idx idx v else A) A) b a) ∧
      (∀ p q,
        (l.foldl (fun A idx => if idx < n then bump A idx idx v else A) A) (n + p) (n + q)
          = 0) := by
  intro l
  induction l with
  | nil => intro A hA hD; exact ⟨hA, hD⟩
  | cons i rest ih =>
    intro A hA hD
    rw [List.foldl_cons]
    by_cases hi : i < n
    · rw [if_pos hi]
      have h := bump_diag_preserves n A i v hA hD hi
      exact ih _ h.1 h.2
    · rw [if_neg hi]
      exact ih _ hA hD

/-! ## Claim theorems -/

/-- C6: for every component list (and any prior solver state), the augmented
matrix `A` assembled by `prepare_system` is symmetric — `A i j = A j i` for
all indices — and its `D` block (rows and columns at offset `n` and beyond,
i.e. the voltage-source block) is identically zero.  Symmetry of the whole
matrix also states that the `B` block is the entry-for-entry transpose of
the `C` block. -/
theorem prepared_matrix_symmetric (s : SolverState) (comps : List Component) :
    (∀ a b, (prepare_system s comps).A a b = (prepare_system s comps).A b a) ∧
    (∀ p q, (prepare_system s comps).A ((prepare_system s comps).n + p)
        ((prepare_system s comps).n + q) = 0) := by
  cases comps with
  | nil =>
    constructor
    · intro a b
      show (if a = 0 ∧ b = 0 then (1 : ℚ) else 0) = (if b = 0 ∧ a = 0 then 1 else 0)
      split_ifs with h1 h2 h2
      · rfl
      · exact absurd ⟨h1.2, h1.1⟩ h2
      · exact absurd ⟨h2.2, h2.1⟩ h1
      · rfl
    · intro p q
      show (if 1 + p = 0 ∧ 1 + q = 0 then (1 : ℚ) else 0) = 0
      rw [if_neg]
      rintro ⟨hp, _⟩
      omega
  | cons c0 cs =>
    dsimp only [prepare_system]
    have h0 : ∀ a b : Nat, (fun (_ _ : Nat) => (0 : ℚ)) a b =
        (fun (_ _ : Nat) => (0 : ℚ)) b a := fun _ _ => rfl
    have h0D : ∀ p q : Nat, (fun (_ _ : Nat) => (0 : ℚ))
        (max (countNodesAndSources s (c0 :: cs)).node_count 1 + p)
        (max (countNodesAndSources s (c0 :: cs)).node_count 1 + q) = 0 :=
      fun _ _ => rfl
    have h1 := diagFold_preserves (max (countNodesAndSources s (c0 :: cs)).node_count 1)
      (1 / 10 ^ 12) (List.range (max (countNodesAndSources s (c0 :: cs)).node_count 1))
      (fun _ _ => 0) h0 h0D (fun i hi => List.mem_range.mp hi)
    have h2 := groundFold_preserves
      (max (countNodesAndSources s (c0 :: cs)).node_count 1) 1000000
      (handleGroundIdxs (countNodesAndSources s (c0 :: cs)) (c0 :: cs)) _ h1.1 h1.2
    exact stampFold_preserves (countNodesAndSources s (c0 :: cs)).nodeList
      (max (countNodesAndSources s (c0 :: cs)).node_count 1)
      (nodeIdx_lt_n s (c0 :: cs)) (c0 :: cs) _ h2.1 h2.2

/-- C5: the spec's basic scenario `[VoltageSource(1,0,5V), Resistor(1,0,1kΩ),
Ground(0)]` solves, in exact arithmetic over the embedded system, to the
voltage map `{1: 5.0, 0: 0.0}` exactly, and the currents map computed from
those voltages gives `0.005 A` for the resistor `R1`. -/
theorem basic_circuit_scenario :
    (solve initState c5comps).map (fun p => p.2) = Except.ok [(1, 5), (0, 0)] ∧
    dictFind (calculate_currents c5comps (voltsOf (solve initState c5comps))) "R1" =
      some 0.005 := by
  with_unfolding_all decide

/-- C1 (code-bug evidence): in the basic scenario the solver stores a nonzero
branch current for the voltage source in the trailing entry of the solved
vector (`voltage_source_currents`), yet the currents map reports `0.0` for
the source `V1` — `PowerSupply.calculate_current` is a placeholder returning
`0.0` and the solved `J` entry is never read back. -/
theorem powerSupply_current_not_from_J :
    dictFind (calculate_currents c5comps (voltsOf (solve initState c5comps))) "V1" =
      some 0 ∧
    (stateOf (solve initState c5comps)).voltage_source_currents.getD 0 0 ≠ 0 ∧
    some ((stateOf (solve initState c5comps)).voltage_source_currents.getD 0 0) ≠
      dictFind (calculate_currents c5comps (voltsOf (solve initState c5comps))) "V1" := by
  with_unfolding_all decide

theorem floatingDetails_length (comps : List Component) :
    (floatingDetails comps).length = (connectedNets comps).length := by
  unfold floatingDetails
  exact List.length_map _ _

/-- C3: for every prior solver state and component list, `solve` returns the
floating-networks error — carrying, per network, the sorted node list and
the set of touching component type names — exactly when the node graph has
two or more connected components; this error is produced by the connectivity
check that runs before the system matrix is assembled or numerically solved
(the numeric path can only produce the distinct `numericFailure` or
`indexError` results).  Concretely, the spec's three-network scenario is
rejected with networks `{0,1}`, `{3,4,5,6}`, `{7}`. -/
theorem solve_fails_fast_on_floating_networks :
    (∀ (s : SolverState) (comps : List Component),
      solve s comps = Except.error (SolveErr.floatingNodes (floatingPayload comps)) ↔
        2 ≤ ccCount comps) ∧
    solve initState scen3comps =
      Except.error (SolveErr.floatingNodes
        [([0, 1], ["PowerSupply"]), ([3, 4, 5, 6], ["Wire"]), ([7], ["Ground"])]) := by
  constructor
  · intro s comps
    by_cases hf : 2 ≤ (connectedNets comps).length
    · constructor
      · intro _
        rw [ccCount_eq]
        exact hf
      · intro _
        unfold solve
        rw [if_pos hf]
    · rw [ccCount_eq]
      refine iff_of_false ?_ hf
      intro heq
      unfold solve at heq
      rw [if_neg hf] at heq
      dsimp only at heq
      split at heq
      · simp at heq
      · split at heq
        · simp at heq
        · simp at heq
  · with_unfolding_all decide

/-- C4: `validate_circuit` always returns a structured report (the embedding
is a total function); the report is invalid exactly when the node graph has
two or more connected components, the connected-components list it carries
has exactly as many entries as the graph has components, the issues list is
empty exactly in the valid case, and any floating-nodes issue lists exactly
one detail record per connected component. -/
theorem validate_reports_floating_networks (comps : List Component) :
    ((validateCircuit comps).is_valid = false ↔ 2 ≤ ccCount comps) ∧
    (validateCircuit comps).connected_components.length = ccCount comps ∧
    ((validateCircuit comps).issues = [] ↔ ccCount comps ≤ 1) ∧
    (∀ msg ds, Issue.floating_nodes msg ds ∈ (validateCircuit comps).issues →
      ds.length = ccCount comps) := by
  have hcc := ccCount_eq comps
  refine ⟨?_, ?_, ?_, ?_⟩
  · unfold validateCircuit
    dsimp only
    rw [hcc]
    simp only [decide_eq_false_iff_not]
    omega
  · unfold validateCircuit
    dsimp only
    exact hcc.symm
  · unfold validateCircuit
    dsimp only
    rw [hcc]
    by_cases h : 2 ≤ (connectedNets comps).length
    · rw [if_pos h]
      refine iff_of_false (by simp) (by omega)
    · rw [if_neg h]
      refine iff_of_true rfl (by omega)
  · intro msg ds hmem
    unfold validateCircuit at hmem
    dsimp only at hmem
    by_cases h : 2 ≤ (connectedNets comps).length
    · rw [if_pos h] at hmem
      have heq := List.mem_singleton.mp hmem
      injection heq with h1 h2
      rw [h2, hcc, floatingDetails_length]
    · rw [if_neg h] at hmem
      cases hmem

/-- C4 witness: in the three-network scenario the floating-nodes issue is
present and lists exactly `ccCount` (= 3) network detail records. -/
theorem validate_reports_floating_networks_witness :
    (Issue.floating_nodes "Circuit has 3 isolated networks" scen3details ∈
      (validateCircuit scen3comps).issues) ∧
    scen3details.length = ccCount scen3comps :=
  ⟨by with_unfolding_all decide,
   (validate_reports_floating_networks scen3comps).2.2.2
     "Circuit has 3 isolated networks" scen3details
     (by with_unfolding_all decide)⟩

/-- C2 counterexample: `[VoltageSource(1,0,5V), Resistor(1,0,R=0)]` has a
voltage source and no resistor of nonzero resistance, yet the validator does
NOT emit the missing-load warning — `_check_load_components` only tests for
the presence of `Resistor` instances and ignores the resistance value. -/
theorem missing_load_zero_resistance_counterexample :
    (∃ c ∈ c2comps, c.kind = Kind.powerSupply) ∧
    (¬ ∃ c ∈ c2comps, c.kind = Kind.resistor ∧ c.resistance ≠ 0) ∧
    (validateCircuit c2comps).warnings.any isMissingLoad = false := by
  refine ⟨?_, ?_, ?_⟩
  · exact ⟨mkPowerSupply "V1" 1 0 5, by with_unfolding_all decide,
      by with_unfolding_all decide⟩
  · rintro ⟨c, hc, hk, hr⟩
    have : c = mkPowerSupply "V1" 1 0 5 ∨ c = mkResistor "R1" 1 0 0 := by
      simpa [c2comps, List.mem_cons] using hc
    rcases this with rfl | rfl
    · exact absurd hk (by with_unfolding_all decide)
    · exact hr (by with_unfolding_all decide)
  · with_unfolding_all decide

/-- C2 amended: the missing-load warning is emitted exactly when some
`VoltageSource` is present and NO `Resistor` component at all is present —
the resistance value plays no role in the check. -/
theorem missing_load_warning_iff_no_resistor (comps : List Component) :
    ((validateCircuit comps).warnings.any isMissingLoad = true) ↔
      ((∃ c ∈ comps, c.kind = Kind.powerSupply) ∧
        ¬ ∃ c ∈ comps, c.kind = Kind.resistor) := by
  have hpow : ((comps.any fun c => decide (c.kind = Kind.powerSupply)) = true) ↔
      ∃ c ∈ comps, c.kind = Kind.powerSupply := by
    simp
  have hres : ((comps.any fun c => decide (c.kind = Kind.resistor)) = true) ↔
      ∃ c ∈ comps, c.kind = Kind.resistor := by
    simp
  unfold validateCircuit
  dsimp only
  rw [List.any_append]
  split_ifs with h1 h2 h2 <;>
    simp only [List.any_cons, List.any_nil, isMissingLoad, Bool.or_false,
      Bool.false_or]
  · rw [Bool.and_eq_true] at h2
    obtain ⟨hp, hr⟩ := h2
    refine iff_of_true trivial ⟨hpow.mp hp, fun hex => ?_⟩
    rw [hres.mpr hex] at hr
    cases hr
  · refine iff_of_false (by simp) ?_
    rintro ⟨hex, hnex⟩
    apply h2
    rw [Bool.and_eq_true]
    refine ⟨hpow.mpr hex, ?_⟩
    have hfa : (comps.any fun c => decide (c.kind = Kind.resistor)) = false :=
      Bool.eq_false_iff.mpr (fun hb => hnex (hres.mp hb))
    rw [hfa]
    rfl
  · rw [Bool.and_eq_true] at h2
    obtain ⟨hp, hr⟩ := h2
    refine iff_of_true trivial ⟨hpow.mp hp, fun hex => ?_⟩
    rw [hres.mpr hex] at hr
    cases hr
  · refine iff_of_false (by simp) ?_
    rintro ⟨hex, hnex⟩
    apply h2
    rw [Bool.and_eq_true]
    refine ⟨hpow.mpr hex, ?_⟩
    have hfa : (comps.any fun c => decide (c.kind = Kind.resistor)) = false :=
      Bool.eq_false_iff.mpr (fun hb => hnex (hres.mp hb))
    rw [hfa]
    rfl

/-- C7 counterexample: with two isolated networks — one touched by both a
`PowerSupply` and a `Ground`, the other touched only by a `PowerSupply` —
the validator produces NO suggestions, although a network containing a
voltage source and a network containing a ground both exist.  The `elif`
classification files the powered+grounded network under "power", leaving the
ground bucket empty. -/
theorem powered_ground_network_no_suggestion :
    2 ≤ (validateCircuit c7comps).connected_components.length ∧
    (∃ N ∈ (validateCircuit c7comps).connected_components,
      netHasPower c7comps N = true) ∧
    (∃ N ∈ (validateCircuit c7comps).connected_components,
      netHasGround c7comps N = true) ∧
    (validateCircuit c7comps).suggestions = [] := by
  refine ⟨by with_unfolding_all decide, ⟨[1, 2], ?_, ?_⟩, ⟨[1, 2], ?_, ?_⟩,
    by with_unfolding_all decide⟩ <;> with_unfolding_all decide

/-- C7 amended: the suggestions are computed from the network partition
power / ground-but-not-power / neither: when at least two networks exist, a
resistor bridge from the first power network to the first ground-only
network is suggested when both exist, and a wire bridge from the first power
network to the first source-and-ground-free network is suggested when both
exist; with no power network (or a valid single network) no suggestions are
made. -/
theorem suggestions_partition_behaviour (comps : List Component) :
    (validateCircuit comps).suggestions =
      (if 2 ≤ (connectedNets comps).length then
        ((match (connectedNets comps).filter (fun net => netHasPower comps net),
                (connectedNets comps).filter
                  (fun net => !netHasPower comps net && netHasGround comps net) with
          | p :: _, g :: _ =>
            [Suggestion.connect_power_to_ground
              "Connect power source to ground through a load resistor" p g "Resistor"]
          | _, _ => []) ++
         (match (connectedNets comps).filter (fun net => netHasPower comps net),
                (connectedNets comps).filter
                  (fun net => !netHasPower comps net && !netHasGround comps net) with
          | p :: _, o :: _ =>
            [Suggestion.connect_power_to_components
              "Connect power source to component network" p o "Wire"]
          | _, _ => []))
      else []) := by
  unfold validateCircuit
  dsimp only
  by_cases h : 2 ≤ (connectedNets comps).length
  · rw [if_pos h, if_pos h]
    unfold suggestFixes
    rw [if_neg (by omega)]
    dsimp only
    rcases hP : (connectedNets comps).filter (fun net => netHasPower comps net) with
      _ | ⟨p, Ps⟩
    · dsimp only
      rfl
    · rcases hG : (connectedNets comps).filter
          (fun net => !netHasPower comps net && netHasGround comps net) with
        _ | ⟨g, Gs⟩ <;>
      rcases hO : (connectedNets comps).filter
          (fun net => !netHasPower comps net && !netHasGround comps net) with
        _ | ⟨o, Os⟩ <;>
      simp [List.isEmpty]
  · rw [if_neg h, if_neg h]

/-- C8: the component constructors take exactly as many node arguments as
the kind's terminal count and build exactly that node list, so a component
whose node-list length violates the contract cannot be constructed (in
Python, a call with the wrong number of node arguments raises `TypeError`
at construction time, long before matrix assembly); additionally, the
passive stamping routine leaves the matrix untouched for any hypothetical
component with fewer than two nodes. -/
theorem constructors_enforce_terminal_counts :
    (∀ (nm : String) (n1 n2 : Int) (r : ℚ),
      (mkResistor nm n1 n2 r).nodes.length =
        terminalCount (mkResistor nm n1 n2 r).kind) ∧
    (∀ (nm : String) (n1 n2 : Int),
      (mkWire nm n1 n2).nodes.length = terminalCount (mkWire nm n1 n2).kind) ∧
    (∀ (nm : String) (n1 : Int),
      (mkGround nm n1).nodes.length = terminalCount (mkGround nm n1).kind) ∧
    (∀ (nm : String) (n1 n2 : Int) (v : ℚ),
      (mkPowerSupply nm n1 n2 v).nodes.length =
        terminalCount (mkPowerSupply nm n1 n2 v).kind) ∧
    (∀ (nl : List Int) (A : Nat → Nat → ℚ) (nm : String) (k : Kind) (r v : ℚ)
      (n1 : Int),
      stampPassive nl ⟨nm, k, [n1], r, v⟩ A = A ∧
      stampPassive nl ⟨nm, k, [], r, v⟩ A = A) :=
  ⟨fun _ _ _ _ => rfl, fun _ _ _ => rfl, fun _ _ => rfl, fun _ _ _ _ => rfl,
   fun _ _ _ _ _ _ _ => ⟨rfl, rfl⟩⟩

/-- C9 counterexample: after solving `[VoltageSource(1,0,5V)]`, solving the
empty list on the same solver does NOT return `{0: 0.0}`: the early return
of `prepare_system` skips the state reset, so the stale node map resurfaces
and the result is `{1: 0.0, 0: 0.0}`. -/
theorem stale_state_empty_solve_counterexample :
    (solve c9staleState []).map (fun p => p.2) = Except.ok [(1, 0), (0, 0)] ∧
    ([((1 : Int), (0 : ℚ)), (0, 0)]) ≠ [((0 : Int), (0 : ℚ))] := by
  with_unfolding_all decide

/-- C9 amended: for every NON-empty component list, `solve` behaves as a
pure function of the list — any prior solver state yields the same voltage
map as a fresh solver (the embedding is deterministic, so two identical
calls trivially agree) — and the node-index assignment is a function of the
set of strictly positive node ids alone (the sorted node list is determined
by membership).  The empty-list behaviour is as exhibited by the
counterexample. -/
theorem solve_pure_on_nonempty :
    (∀ (s : SolverState) (comps : List Component), comps ≠ [] →
      (solve s comps).map (fun p => p.2) =
        (solve initState comps).map (fun p => p.2)) ∧
    (∀ (s s2 : SolverState) (comps comps2 : List Component),
      (∀ x : Int, (0 < x ∧ ∃ c ∈ comps, x ∈ c.nodes) ↔
        (0 < x ∧ ∃ c ∈ comps2, x ∈ c.nodes)) →
      (countNodesAndSources s comps).nodeList =
        (countNodesAndSources s2 comps2).nodeList) := by
  constructor
  · intro s comps hne
    cases comps with
    | nil => exact absurd rfl hne
    | cons c cs =>
      unfold solve
      by_cases hf : 2 ≤ (connectedNets (c :: cs)).length
      · rw [if_pos hf, if_pos hf]
      · rw [if_neg hf, if_neg hf]
        dsimp only
        have hps : prepare_system s (c :: cs) =
            ⟨⟨(prepare_system initState (c :: cs)).s.nodeList,
              (prepare_system initState (c :: cs)).s.node_count,
              (prepare_system initState (c :: cs)).s.num_voltage_sources,
              s.voltage_source_currents⟩,
             (prepare_system initState (c :: cs)).n,
             (prepare_system initState (c :: cs)).m,
             (prepare_system initState (c :: cs)).A,
             (prepare_system initState (c :: cs)).z⟩ := rfl
        rw [hps]
        dsimp only
        rcases hg : gaussSolve
            (matRows ((prepare_system initState (c :: cs)).n +
              (prepare_system initState (c :: cs)).m)
              (prepare_system initState (c :: cs)).A)
            (vecItems ((prepare_system initState (c :: cs)).n +
              (prepare_system initState (c :: cs)).m)
              (prepare_system initState (c :: cs)).z) with _ | x
        · rfl
        · dsimp only
          rcases hb : buildResultAux
              (x.take (prepare_system initState (c :: cs)).s.node_count)
              (prepare_system initState (c :: cs)).s.nodeList 0 with _ | r0
          · rfl
          · dsimp only
            by_cases hm : 0 < (prepare_system initState (c :: cs)).s.num_voltage_sources
            · rw [if_pos hm, if_pos hm]
            · rw [if_neg hm, if_neg hm]
              rfl
  · intro s s2 comps comps2 hiff
    unfold countNodesAndSources
    dsimp only
    have hmem : ∀ x : Int,
        x ∈ firstDedup (((comps.foldr (fun c acc => c.nodes ++ acc) [])).filter
          (fun n => 0 < n)) ↔
        x ∈ firstDedup (((comps2.foldr (fun c acc => c.nodes ++ acc) [])).filter
          (fun n => 0 < n)) := by
      intro x
      rw [mem_firstDedup, mem_firstDedup, List.mem_filter, List.mem_filter]
      simp only [decide_eq_true_eq, mem_nodes_foldr]
      constructor
      · rintro ⟨h1, h2⟩
        have := (hiff x).mp ⟨h2, h1⟩
        exact ⟨this.2, this.1⟩
      · rintro ⟨h1, h2⟩
        have := (hiff x).mpr ⟨h2, h1⟩
        exact ⟨this.2, this.1⟩
    have hnd1 := nodup_firstDedup ((comps.foldr (fun c acc => c.nodes ++ acc) []).filter
      (fun n => 0 < n))
    have hnd2 := nodup_firstDedup ((comps2.foldr (fun c acc => c.nodes ++ acc) []).filter
      (fun n => 0 < n))
    have hperm : List.Perm
        (isort (firstDedup ((comps.foldr (fun c acc => c.nodes ++ acc) []).filter
          (fun n => 0 < n))))
        (isort (firstDedup ((comps2.foldr (fun c acc => c.nodes ++ acc) []).filter
          (fun n => 0 < n)))) := by
      refine (List.perm_ext_iff_of_nodup ?_ ?_).mpr ?_
      · exact ((List.perm_insertionSort _ _).nodup_iff).mpr hnd1
      · exact ((List.perm_insertionSort _ _).nodup_iff).mpr hnd2
      · intro a
        rw [isort, isort, List.mem_insertionSort, List.mem_insertionSort]
        exact hmem a
    exact @List.eq_of_perm_of_sorted Int (fun a b => a ≤ b)
      ⟨fun a b h1 h2 => le_antisymm h1 h2⟩ _ _ hperm
      (List.sorted_insertionSort _ _) (List.sorted_insertionSort _ _)

/-- C9 witness: the amended purity holds at the stale solver state and a
concrete non-empty list, and the node-order conjunct applies to lists with
identical node sets. -/
theorem solve_pure_on_nonempty_witness :
    (c5comps ≠ []) ∧
    (solve c9staleState c5comps).map (fun p => p.2) =
      (solve initState c5comps).map (fun p => p.2) ∧
    (countNodesAndSources c9staleState c9prior).nodeList =
      (countNodesAndSources initState c9prior).nodeList :=
  ⟨by with_unfolding_all decide,
   solve_pure_on_nonempty.1 c9staleState c5comps (by with_unfolding_all decide),
   solve_pure_on_nonempty.2 c9staleState initState c9prior c9prior
     (fun _ => Iff.rfl)⟩

/-! ## Dictionary lemmas and the currents map -/

theorem dictFind_map_replace_self {α β : Type} [DecidableEq α]
    (d : List (α × β)) (k : α) (v : β) (h : d.any (fun p => p.1 = k) = true) :
    dictFind (d.map (fun p => if p.1 = k then (k, v) else p)) k = some v := by
  induction d with
  | nil => cases h
  | cons p rest ih =>
    by_cases hp : p.1 = k
    · unfold dictFind
      rw [List.map_cons, if_pos hp]
      dsimp only
      rw [if_pos rfl]
    · unfold dictFind
      rw [List.map_cons, if_neg hp]
      dsimp only
      rw [if_neg hp]
      refine ih ?_
      rw [List.any_cons] at h
      rcases Bool.or_eq_true_iff.mp h with h | h
      · exact absurd (of_decide_eq_true h) hp
      · exact h

theorem dictFind_map_replace_ne {α β : Type} [DecidableEq α]
    (d : List (α × β)) (k k2 : α) (v : β) (hne : k2 ≠ k) :
    dictFind (d.map (fun p => if p.1 = k then (k, v) else p)) k2 = dictFind d k2 := by
  induction d with
  | nil => rfl
  | cons p rest ih =>
    by_cases hp : p.1 = k
    · unfold dictFind
      rw [List.map_cons, if_pos hp]
      dsimp only
      rw [if_neg (show ¬k = k2 from fun hk => hne hk.symm),
        if_neg (show ¬p.1 = k2 from fun hp2 => hne (hp2.symm.trans hp))]
      exact ih
    · unfold dictFind
      rw [List.map_cons, if_neg hp]
      dsimp only
      by_cases hp2 : p.1 = k2
      · rw [if_pos hp2, if_pos hp2]
      · rw [if_neg hp2, if_neg hp2]
        exact ih

theorem any_eq_false_find_none {α β : Type} [DecidableEq α]
    (d : List (α × β)) (k : α) (h : d.any (fun p => p.1 = k) = false) :
    dictFind d k = none := by
  induction d with
  | nil => rfl
  | cons p rest ih =>
    rw [List.any_cons] at h
    rcases Bool.or_eq_false_iff.mp h with ⟨h1, h2⟩
    unfold dictFind
    rw [if_neg (of_decide_eq_false h1)]
    exact ih h2

theorem dictFind_append_single_self {α β : Type} [DecidableEq α]
    (d : List (α × β)) (k : α) (v : β) (h : dictFind d k = none) :
    dictFind (d ++ [(k, v)]) k = some v := by
  induction d with
  | nil =>
    rw [List.nil_append]
    unfold dictFind
    dsimp only
    rw [if_pos rfl]
  | cons p rest ih =>
    unfold dictFind at h ⊢
    rw [List.cons_append]
    by_cases hp : p.1 = k
    · rw [if_pos hp] at h
      cases h
    · rw [if_neg hp] at h
      dsimp only
      rw [if_neg hp]
      exact ih h

theorem dictFind_append_single_ne {α β : Type} [DecidableEq α]
    (d : List (α × β)) (k k2 : α) (v : β) (hne : k2 ≠ k) :
    dictFind (d ++ [(k, v)]) k2 = dictFind d k2 := by
  induction d with
  | nil =>
    rw [List.nil_append]
    unfold dictFind
    dsimp only
    rw [if_neg (show ¬k = k2 from fun hk => hne hk.symm)]
    rfl
  | cons p rest ih =>
    rw [List.cons_append]
    unfold dictFind
    by_cases hp : p.1 = k2
    · rw [if_pos hp, if_pos hp]
    · rw [if_neg hp, if_neg hp]
      exact ih

theorem dictFind_insert_self {α β : Type} [DecidableEq α]
    (d : List (α × β)) (k : α) (v : β) :
    dictFind (dictInsert d k v) k = some v := by
  unfold dictInsert
  split_ifs with h
  · exact dictFind_map_replace_self d k v h
  · exact dictFind_append_single_self d k v
      (any_eq_false_find_none d k (Bool.eq_false_iff.mpr h))

theorem dictFind_insert_ne {α β : Type} [DecidableEq α]
    (d : List (α × β)) (k k2 : α) (v : β) (hne : k2 ≠ k) :
    dictFind (dictInsert d k v) k2 = dictFind d k2 := by
  unfold dictInsert
  split_ifs with h
  · exact dictFind_map_replace_ne d k k2 v hne
  · exact dictFind_append_single_ne d k k2 v hne

theorem keys_insert {α β : Type} [DecidableEq α] (d : List (α × β)) (k : α) (v : β) :
    (dictInsert d k v).map Prod.fst =
      if d.any (fun p => p.1 = k) = true then d.map Prod.fst
      else d.map Prod.fst ++ [k] := by
  unfold dictInsert
  split_ifs with h
  · rw [List.map_map]
    refine List.map_congr_left ?_
    intro p _
    by_cases hp : p.1 = k
    · simp [hp]
    · simp [hp]
  · simp

theorem mem_keys_insert_self {α β : Type} [DecidableEq α]
    (d : List (α × β)) (k : α) (v : β) :
    k ∈ (dictInsert d k v).map Prod.fst := by
  rw [keys_insert]
  split_ifs with h
  · rcases List.any_eq_true.mp h with ⟨p, hp, hpk⟩
    have : p.1 = k := of_decide_eq_true hpk
    exact this ▸ List.mem_map_of_mem Prod.fst hp
  · exact List.mem_append.mpr (Or.inr (List.mem_singleton.mpr rfl))

theorem mem_keys_insert_of_mem {α β : Type} [DecidableEq α]
    (d : List (α × β)) (k k2 : α) (v : β) (h : k2 ∈ d.map Prod.fst) :
    k2 ∈ (dictInsert d k v).map Prod.fst := by
  rw [keys_insert]
  split_ifs
  · exact h
  · exact List.mem_append.mpr (Or.inl h)

theorem nodup_keys_insert {α β : Type} [DecidableEq α]
    (d : List (α × β)) (k : α) (v : β) (h : (d.map Prod.fst).Nodup) :
    ((dictInsert d k v).map Prod.fst).Nodup := by
  rw [keys_insert]
  split_ifs with hany
  · exact h
  · refine List.nodup_append.mpr ⟨h, List.nodup_singleton k, ?_⟩
    intro a ha hak
    rcases List.mem_singleton.mp hak with rfl
    rcases List.mem_map.mp ha with ⟨p, hp, hpk⟩
    have : d.any (fun p => p.1 = a) = true :=
      List.any_eq_true.mpr ⟨p, hp, decide_eq_true hpk⟩
    exact hany this

theorem find_mem_keys {α β : Type} [DecidableEq α] (d : List (α × β)) (k : α)
    (h : k ∈ d.map Prod.fst) : ∃ q, dictFind d k = some q := by
  induction d with
  | nil => cases h
  | cons p rest ih =>
    unfold dictFind
    by_cases hp : p.1 = k
    · exact ⟨p.2, by rw [if_pos hp]⟩
    · rw [if_neg hp]
      refine ih ?_
      rcases List.mem_map.mp h with ⟨q, hq, hqk⟩
      rcases List.mem_cons.mp hq with rfl | hq
      · exact absurd hqk hp
      · exact List.mem_map.mpr ⟨q, hq, hqk⟩

theorem currents_fold_keys_mono (nv : List (Int × ℚ)) :
    ∀ (cs : List Component) (acc : List (String × ℚ)) (k : String),
      k ∈ acc.map Prod.fst → k ∈ (cs.foldl (currentStep nv) acc).map Prod.fst := by
  intro cs
  induction cs with
  | nil => intro acc k h; exact h
  | cons c rest ih =>
    intro acc k h
    rw [List.foldl_cons]
    exact ih _ k (mem_keys_insert_of_mem _ _ _ _ h)

theorem currents_fold_nodup (nv : List (Int × ℚ)) :
    ∀ (cs : List Component) (acc : List (String × ℚ)),
      (acc.map Prod.fst).Nodup → ((cs.foldl (currentStep nv) acc).map Prod.fst).Nodup := by
  intro cs
  induction cs with
  | nil => intro acc h; exact h
  | cons c rest ih =>
    intro acc h
    rw [List.foldl_cons]
    exact ih _ (nodup_keys_insert _ _ _ h)

theorem currents_fold_frozen (nv : List (Int × ℚ)) :
    ∀ (cs : List Component) (acc : List (String × ℚ)) (k : String),
      (∀ c ∈ cs, c.name ≠ k) →
      dictFind (cs.foldl (currentStep nv) acc) k = dictFind acc k := by
  intro cs
  induction cs with
  | nil => intro acc k _; rfl
  | cons c rest ih =>
    intro acc k h
    rw [List.foldl_cons]
    rw [ih _ k (fun c2 hc2 => h c2 (List.mem_cons_of_mem _ hc2))]
    exact dictFind_insert_ne _ _ _ _
      (fun hk => h c (List.mem_cons_self _ _) hk.symm)

theorem zero_current_kinds (c : Component) (v1 v2 : ℚ)
    (h : c.kind = Kind.wire ∨ c.kind = Kind.ground ∨ c.kind = Kind.powerSupply) :
    c.calculate_current v1 v2 = 0 := by
  unfold Component.calculate_current
  rcases h with h | h | h <;> rw [h]

/-- C10: `calculate_currents` produces a map with one entry per distinct
component name (its key list has no duplicates), covering every supplied
component — every component exposes a current function, including Ground
with a single node — and, when component names are pairwise distinct, the
entry of every `Wire`, `Ground` and `PowerSupply` component is exactly `0`,
because none of these kinds overrides the default zero-current behaviour. -/
theorem calculate_currents_covers (comps : List Component) (nv : List (Int × ℚ)) :
    (∀ c ∈ comps, ∃ q, dictFind (calculate_currents comps nv) c.name = some q) ∧
    ((calculate_currents comps nv).map Prod.fst).Nodup ∧
    ((comps.map Component.name).Nodup →
      ∀ c ∈ comps,
        (c.kind = Kind.wire ∨ c.kind = Kind.ground ∨ c.kind = Kind.powerSupply) →
        dictFind (calculate_currents comps nv) c.name = some 0) := by
  refine ⟨?_, ?_, ?_⟩
  · intro c hc
    refine find_mem_keys _ _ ?_
    unfold calculate_currents
    have hkey : ∀ (cs : List Component) (acc : List (String × ℚ)),
        ∀ c2 ∈ cs, c2.name ∈ (cs.foldl (currentStep nv) acc).map Prod.fst := by
      intro cs
      induction cs with
      | nil => intro acc c2 hc2; cases hc2
      | cons c0 rest ih =>
        intro acc c2 hc2
        rw [List.foldl_cons]
        rcases List.mem_cons.mp hc2 with rfl | hc2
        · exact currents_fold_keys_mono nv rest _ _ (mem_keys_insert_self _ _ _)
        · exact ih _ c2 hc2
    exact hkey comps [] c hc
  · exact currents_fold_nodup nv comps [] List.nodup_nil
  · intro hnd c hc hk
    unfold calculate_currents
    have hmain : ∀ (cs : List Component) (acc : List (String × ℚ)),
        (cs.map Component.name).Nodup → ∀ c2 ∈ cs,
        (c2.kind = Kind.wire ∨ c2.kind = Kind.ground ∨ c2.kind = Kind.powerSupply) →
        dictFind (cs.foldl (currentStep nv) acc) c2.name = some 0 := by
      intro cs
      induction cs with
      | nil => intro acc _ c2 hc2; cases hc2
      | cons c0 rest ih =>
        intro acc hnd2 c2 hc2 hk2
        rw [List.foldl_cons]
        rw [List.map_cons] at hnd2
        have hnd3 := List.nodup_cons.mp hnd2
        rcases List.mem_cons.mp hc2 with heq | hc2
        · subst heq
          rw [currents_fold_frozen nv rest _ c2.name
            (fun c3 hc3 hne => hnd3.1 (hne ▸ List.mem_map_of_mem Component.name hc3))]
          unfold currentStep
          dsimp only
          rw [zero_current_kinds c2 _ _ hk2]
          exact dictFind_insert_self _ _ _
        · exact ih _ hnd3.2 c2 hc2 hk2
    exact hmain comps [] hnd c hc hk

/-- C10 witness: in the three-network scenario all names are distinct and
the wire `W1` gets current `0` in the currents map. -/
theorem calculate_currents_covers_witness :
    (scen3comps.map Component.name).Nodup ∧
    dictFind (calculate_currents scen3comps []) (mkWire "W1" 3 4).name = some 0 :=
  ⟨by with_unfolding_all decide,
   (calculate_currents_covers scen3comps []).2.2 (by with_unfolding_all decide)
     (mkWire "W1" 3 4) (by with_unfolding_all decide) (Or.inl rfl)⟩

end CircuitMaker
